import Mathlib

/-!
Verification of the Hashmap repository: a JavaScript `HashMap` (linked-list
chaining) and `HashSet` (per-bucket unique-membership collection), both with
polynomial rolling hash, load-factor-triggered doubling resize, and the
operations set/get/has/remove/length/clear/keys/values/entries (map) and
add/has/remove/length/clear/keys (set).

Modelling conventions:
- JavaScript values stored in the map are modelled by the inductive `JsVal`,
  which includes `JsVal.null` (the value `get` returns on a miss).
- A bucket (`this.storage[index]`) is modelled as a `List`: the map's singly
  linked `Node` chain in head-to-tail order, and the set's per-bucket `Set`
  object in insertion order.  A falsy (absent) bucket and an empty chain both
  become `[]`, which is observationally identical in the source.
- JavaScript numeric state (`size`, `capacity`) is a `Nat`; `loadFactor` and
  the division in `_shouldResize` are modelled exactly over `ℚ` (for the
  constants appearing in the repository, 16/32/... and 0.75, double-precision
  division is exact, so the rational model agrees with the source).
- The hash code is modelled twice.  `HashMap.hash`/`HashSet.hash` idealize
  the fold `31 * hashCode + charCodeAt(i)` over exact unbounded integers
  (the fold never goes negative, so `Math.abs` is `Int.natAbs` on a
  nonnegative value).  The source, however, folds over IEEE-754 binary64
  doubles and UTF-16 code units: every intermediate on this path is a
  nonnegative integer-valued double or `Infinity`, so the faithful model
  `hashF` carries an `Option ℕ` (`none` = `Infinity`) and rounds each
  multiplication and addition to nearest, ties to even, overflowing to
  `Infinity` at `2^1024` (`roundFloat`).  The fold rounds from about 12
  code units on and saturates from about 208 code units on; a saturated
  hash makes `Math.abs(hash) % capacity` evaluate to `NaN`, and
  `this.storage[NaN]` is the array object's string property "NaN" — see
  `HashMapF`, which threads that bucket explicitly.  Properties sensitive
  to the difference are settled over `hashF`/`HashMapF`; the properties
  stated over the idealization are those that depend on the bucket index
  only through its being a deterministic function of the key.
- The source's `set`/`add` recurse through `_resize`, which re-inserts every
  entry through the normal insertion path; the recursion is modelled with an
  explicit structural fuel (`setF`/`addF`), with the `_resize` body inlined in
  the fuel-successor branch.  The fuel chosen in `set`/`add` is proved large
  enough that the fuel-exhaustion branch is never reached from states
  satisfying the documented load-factor invariant.
-/

/-- A JavaScript value as storable in the map: `null`, a boolean, a number or
a string.  `JsVal.null` is what `HashMap.get` returns on a lookup miss. -/
inductive JsVal where
  | null : JsVal
  | bool (b : Bool) : JsVal
  | num (n : Int) : JsVal
  | str (s : String) : JsVal
deriving DecidableEq

/-! ### Bucket-chain operations of the map

These model the `while` loops that traverse the singly linked `Node` chain of
one bucket (`src/unnamed/part_001`). -/

/-- The chain traversal of `HashMap.set`: if a node with this key exists,
overwrite its value in place and report `some` updated chain; otherwise
report `none` (the caller appends a fresh node at the tail). -/
def setChain : List (String × JsVal) → String → JsVal → Option (List (String × JsVal))
  | [], _, _ => none
  | e :: rest, key, value =>
    if e.1 = key then some ((e.1, value) :: rest)
    else (setChain rest key value).map (fun rest' => e :: rest')

/-- The chain traversal of `HashMap.get`: value of the first node with this
key, or `null` when the chain is exhausted. -/
def getChain : List (String × JsVal) → String → JsVal
  | [], _ => JsVal.null
  | e :: rest, key => if e.1 = key then e.2 else getChain rest key

/-- The chain traversal of `HashMap.has`. -/
def hasChain : List (String × JsVal) → String → Bool
  | [], _ => false
  | e :: rest, key => if e.1 = key then true else hasChain rest key

/-- The chain traversal of `HashMap.remove`: splice out the first node with
this key (head splice or trailing-pointer splice), or `none` if absent. -/
def removeChain : List (String × JsVal) → String → Option (List (String × JsVal))
  | [], _ => none
  | e :: rest, key =>
    if e.1 = key then some rest
    else (removeChain rest key).map (fun rest' => e :: rest')

/-- Proof-level observer: the value of the first node with this key, as an
`Option`.  `getChain` and `hasChain` are its two projections. -/
def lookupChain : List (String × JsVal) → String → Option JsVal
  | [], _ => none
  | e :: rest, key => if e.1 = key then some e.2 else lookupChain rest key

/-! ### The `HashMap` class (`src/unnamed/part_001`) -/

/-- State of a `HashMap` instance: the bucket array `storage`, the live-entry
counter `size`, the array length `capacity`, and the resize threshold
`loadFactor`. -/
structure HashMap where
  storage : List (List (String × JsVal))
  size : Nat
  capacity : Nat
  loadFactor : ℚ
deriving DecidableEq

/-- The constructor `new HashMap(initialCapacity, loadFactor)` (defaults in
the source: 16 and 0.75). -/
def HashMap.create (initialCapacity : Nat) (loadFactor : ℚ) : HashMap :=
  { storage := List.replicate initialCapacity []
    size := 0
    capacity := initialCapacity
    loadFactor := loadFactor }

/-- `HashMap.prototype.hash` idealized over exact unbounded integers:
the polynomial rolling hash `hashCode = 31 * hashCode + charCodeAt(i)`
folded left-to-right from 0.  The source computes this fold over IEEE-754
doubles and `charCodeAt` yields UTF-16 code units, so this idealization is
bit-exact only while the running value stays below `2^53` and the key has
no astral characters; the faithful double-precision model is `hashF`
below, and the properties sensitive to the difference (rounding from
about 12 code units on, saturation to `Infinity` — hence a `NaN` bucket
index — from about 208 code units on) are settled over `hashF`. -/
def HashMap.hash (key : String) : Int :=
  key.data.foldl (fun hashCode c => 31 * hashCode + (c.toNat : Int)) 0

/-- `HashMap.prototype._getIndex`: `Math.abs(hashCode) % this.capacity`. -/
def HashMap._getIndex (m : HashMap) (hashCode : Int) : Nat :=
  hashCode.natAbs % m.capacity

/-- `HashMap.prototype._shouldResize`: `(this.size / this.capacity) > this.loadFactor`.
The rational comparison is written cross-multiplied by the (positive)
denominators, which is the same predicate whenever `capacity > 0` (see
`HashMap.shouldResize_iff`) and keeps the definition computable by the
kernel. -/
def HashMap._shouldResize (m : HashMap) : Bool :=
  decide ((m.size : ℤ) * (m.loadFactor.den : ℤ) > m.loadFactor.num * (m.capacity : ℤ))

/-- The bucket update performed by `HashMap.prototype.set` before the resize
check: update in place when the key is present (second component `false`),
otherwise append a node at the chain's tail and increment `size` (second
component `true`). -/
def HashMap._setRaw (m : HashMap) (key : String) (value : JsVal) : HashMap × Bool :=
  let index := m._getIndex (HashMap.hash key)
  let bucket := m.storage.getD index []
  match setChain bucket key value with
  | some bucket' => ({ m with storage := m.storage.set index bucket' }, false)
  | none =>
    ({ m with storage := m.storage.set index (bucket ++ [(key, value)])
              size := m.size + 1 }, true)

/-- `HashMap.prototype.entries`: full bucket-array traversal, bucket `0` to
`capacity - 1`, chain head-to-tail, materialized as a list of pairs. -/
def HashMap.entries (m : HashMap) : List (String × JsVal) :=
  m.storage.flatten

/-- The fresh doubled table allocated at the start of
`HashMap.prototype._resize` (`capacity *= 2`, empty storage, `size = 0`). -/
def HashMap.emptyDouble (m : HashMap) : HashMap :=
  { storage := List.replicate (m.capacity * 2) []
    size := 0
    capacity := m.capacity * 2
    loadFactor := m.loadFactor }

/-- Fuelled `HashMap.prototype.set`.  On a true insertion, if
`_shouldResize` fires, the body of `_resize` is inlined here: the old
entries are re-inserted through this same insertion path into the doubled
table.  Re-insertion consumes one unit of fuel; with zero fuel the resize is
skipped (the wrapper `HashMap.set` supplies provably sufficient fuel). -/
def HashMap.setF : Nat → HashMap → String → JsVal → HashMap
  | 0, m, key, value => (m._setRaw key value).1
  | fuel + 1, m, key, value =>
    let r := m._setRaw key value
    if r.2 && r.1._shouldResize then
      r.1.entries.foldl (fun acc e => HashMap.setF fuel acc e.1 e.2) r.1.emptyDouble
    else r.1

/-- `HashMap.prototype.set`.  The fuel bounds the number of nested resizes;
it is large enough that the truncation branch of `setF` is never taken from
any state satisfying the load-factor invariant. -/
def HashMap.set (m : HashMap) (key : String) (value : JsVal) : HashMap :=
  HashMap.setF ((m.size + 1) * m.loadFactor.den + 1) m key value

/-- `HashMap.prototype.get`: traverse the chain of the key's bucket, return
the first matching node's value, or `null`. -/
def HashMap.get (m : HashMap) (key : String) : JsVal :=
  getChain (m.storage.getD (m._getIndex (HashMap.hash key)) []) key

/-- `HashMap.prototype.has`. -/
def HashMap.has (m : HashMap) (key : String) : Bool :=
  hasChain (m.storage.getD (m._getIndex (HashMap.hash key)) []) key

/-- `HashMap.prototype.remove`: splice the first matching node out of the
key's bucket chain and decrement `size`, reporting `true`; report `false`
when the key is absent. -/
def HashMap.remove (m : HashMap) (key : String) : HashMap × Bool :=
  let index := m._getIndex (HashMap.hash key)
  match removeChain (m.storage.getD index []) key with
  | some bucket' =>
    ({ m with storage := m.storage.set index bucket', size := m.size - 1 }, true)
  | none => (m, false)

/-- `HashMap.prototype.length`: returns `size`. -/
def HashMap.length (m : HashMap) : Nat :=
  m.size

/-- `HashMap.prototype.clear`: fresh empty bucket array of the *current*
capacity, `size = 0`. -/
def HashMap.clear (m : HashMap) : HashMap :=
  { m with storage := List.replicate m.capacity [], size := 0 }

/-- `HashMap.prototype.keys`: same traversal as `entries`, pushing keys. -/
def HashMap.keys (m : HashMap) : List String :=
  (m.storage.map (fun b => b.map Prod.fst)).flatten

/-- `HashMap.prototype.values`: same traversal as `entries`, pushing values. -/
def HashMap.values (m : HashMap) : List JsVal :=
  (m.storage.map (fun b => b.map Prod.snd)).flatten

/-- Proof-level observer: the stored value of a key as an `Option`
(`get` is `lookup` defaulted with `null`; `has` is `lookup`'s `isSome`). -/
def HashMap.lookup (m : HashMap) (key : String) : Option JsVal :=
  lookupChain (m.storage.getD (m._getIndex (HashMap.hash key)) []) key

/-! ### The `HashSet` class (`src/unnamed/part_000`) -/

/-- State of a `HashSet` instance.  Each bucket is the per-bucket `Set`
object, modelled as its elements in insertion order. -/
structure HashSet where
  storage : List (List String)
  size : Nat
  capacity : Nat
  loadFactor : ℚ
deriving DecidableEq

/-- The constructor `new HashSet(initialCapacity, loadFactor)`. -/
def HashSet.create (initialCapacity : Nat) (loadFactor : ℚ) : HashSet :=
  { storage := List.replicate initialCapacity []
    size := 0
    capacity := initialCapacity
    loadFactor := loadFactor }

/-- `HashSet.prototype.hash`: same polynomial rolling hash as the map,
under the same exact-integer idealization (see `HashMap.hash` and the
bit-exact `hashF`). -/
def HashSet.hash (key : String) : Int :=
  key.data.foldl (fun hashCode c => 31 * hashCode + (c.toNat : Int)) 0

/-- `HashSet.prototype._getIndex`. -/
def HashSet._getIndex (s : HashSet) (hashCode : Int) : Nat :=
  hashCode.natAbs % s.capacity

/-- `HashSet.prototype._shouldResize`: same cross-multiplied form of
`(this.size / this.capacity) > this.loadFactor` as for the map. -/
def HashSet._shouldResize (s : HashSet) : Bool :=
  decide ((s.size : ℤ) * (s.loadFactor.den : ℤ) > s.loadFactor.num * (s.capacity : ℤ))

/-- The bucket update of `HashSet.prototype.add` before the resize check:
a missing bucket is created empty, then the key is added (and `size`
incremented) only if not already a member. -/
def HashSet._addRaw (s : HashSet) (key : String) : HashSet × Bool :=
  let index := s._getIndex (HashSet.hash key)
  let bucket := s.storage.getD index []
  if bucket.contains key then (s, false)
  else
    ({ s with storage := s.storage.set index (bucket ++ [key])
              size := s.size + 1 }, true)

/-- `HashSet.prototype.keys`: full bucket-array traversal spreading each
per-bucket collection in insertion order. -/
def HashSet.keys (s : HashSet) : List String :=
  s.storage.flatten

/-- The fresh doubled table allocated by `HashSet.prototype._resize`. -/
def HashSet.emptyDouble (s : HashSet) : HashSet :=
  { storage := List.replicate (s.capacity * 2) []
    size := 0
    capacity := s.capacity * 2
    loadFactor := s.loadFactor }

/-- Fuelled `HashSet.prototype.add`.  Unlike the map's `set`, the source
runs the `_shouldResize` check at the end of every `add`, including a
duplicate (no-op) `add`; `_resize` is inlined in the fuel-successor branch
exactly as for the map. -/
def HashSet.addF : Nat → HashSet → String → HashSet
  | 0, s, key => (s._addRaw key).1
  | fuel + 1, s, key =>
    let r := s._addRaw key
    if r.1._shouldResize then
      r.1.keys.foldl (fun acc k => HashSet.addF fuel acc k) r.1.emptyDouble
    else r.1

/-- `HashSet.prototype.add`, with provably sufficient fuel. -/
def HashSet.add (s : HashSet) (key : String) : HashSet :=
  HashSet.addF ((s.size + 1) * s.loadFactor.den + 1) s key

/-- `HashSet.prototype.has`: membership in the key's bucket (`false` when
the bucket is missing). -/
def HashSet.has (s : HashSet) (key : String) : Bool :=
  (s.storage.getD (s._getIndex (HashSet.hash key)) []).contains key

/-- `HashSet.prototype.remove`: delete the key from its bucket and decrement
`size` when present, reporting whether it was found. -/
def HashSet.remove (s : HashSet) (key : String) : HashSet × Bool :=
  let index := s._getIndex (HashSet.hash key)
  let bucket := s.storage.getD index []
  if bucket.contains key then
    ({ s with storage := s.storage.set index (bucket.erase key)
              size := s.size - 1 }, true)
  else (s, false)

/-- `HashSet.prototype.length`. -/
def HashSet.length (s : HashSet) : Nat :=
  s.size

/-- `HashSet.prototype.clear`: fresh empty bucket array of the current
capacity, `size = 0`. -/
def HashSet.clear (s : HashSet) : HashSet :=
  { s with storage := List.replicate s.capacity [], size := 0 }

/-- The rational `3/4 = 0.75` (the source's default `loadFactor`) in
normal form, so that the kernel can evaluate states built from it. -/
def ratio34 : ℚ := ⟨3, 4, by norm_num, by norm_num⟩

theorem ratio34_eq : ratio34 = 3 / 4 := by
  have h := Rat.num_div_den ratio34
  rw [show ratio34.num = 3 from rfl, show ratio34.den = 4 from rfl] at h
  push_cast at h
  exact h.symm

/-! ### Generic list helpers -/

theorem getD_replicate_nil (n i : Nat) :
    (List.replicate n ([] : List α)).getD i [] = [] := by
  induction n generalizing i with
  | zero => simp [List.getD_nil]
  | succ n ih =>
    cases i with
    | zero => simp [List.replicate]
    | succ i => simpa [List.replicate] using ih i

theorem getD_set_self (l : List α) (i : Nat) (b d : α) (h : i < l.length) :
    (l.set i b).getD i d = b := by
  induction l generalizing i with
  | nil => simp at h
  | cons a l ih =>
    cases i with
    | zero => simp
    | succ i => simpa using ih i (by simpa using h)

theorem getD_set_ne (l : List α) (i j : Nat) (b d : α) (h : i ≠ j) :
    (l.set i b).getD j d = l.getD j d := by
  induction l generalizing i j with
  | nil => simp
  | cons a l ih =>
    cases i with
    | zero => cases j with
      | zero => exact absurd rfl h
      | succ j => simp
    | succ i =>
      cases j with
      | zero => simp
      | succ j => simpa using ih i j (by omega)

theorem getD_ge_length (l : List α) (i : Nat) (d : α) (h : l.length ≤ i) :
    l.getD i d = d := by
  induction l generalizing i with
  | nil => simp
  | cons a l ih =>
    cases i with
    | zero => simp at h
    | succ i => simpa using ih i (by simpa using h)

/-- Replacing bucket `i` changes the total number of stored entries by the
difference of the two bucket lengths. -/
theorem sum_length_set (l : List (List α)) (i : Nat) (b : List α) (h : i < l.length) :
    ((l.set i b).map List.length).sum + (l.getD i []).length
      = (l.map List.length).sum + b.length := by
  induction l generalizing i with
  | nil => simp at h
  | cons a l ih =>
    cases i with
    | zero => simp [Nat.add_comm, Nat.add_left_comm, Nat.add_assoc]
    | succ i =>
      have := ih i (by simpa using h)
      simp only [List.set, List.getD_cons_succ, List.map, List.sum_cons]
      omega

theorem sum_length_replicate_nil (n : Nat) :
    ((List.replicate n ([] : List α)).map List.length).sum = 0 := by
  induction n with
  | zero => rfl
  | succ n ih => simpa [List.replicate] using ih

/-! ### Lemmas about the bucket-chain operations -/

theorem getChain_eq_lookup (b : List (String × JsVal)) (key : String) :
    getChain b key = (lookupChain b key).getD JsVal.null := by
  induction b with
  | nil => rfl
  | cons e rest ih =>
    by_cases h : e.1 = key <;> simp [getChain, lookupChain, h, ih]

theorem hasChain_eq_lookup (b : List (String × JsVal)) (key : String) :
    hasChain b key = (lookupChain b key).isSome := by
  induction b with
  | nil => rfl
  | cons e rest ih =>
    by_cases h : e.1 = key <;> simp [hasChain, lookupChain, h, ih]

theorem lookupChain_eq_none_iff (b : List (String × JsVal)) (key : String) :
    lookupChain b key = none ↔ key ∉ b.map Prod.fst := by
  induction b with
  | nil => simp [lookupChain]
  | cons e rest ih =>
    by_cases h : e.1 = key
    · simp [lookupChain, h]
    · simp [lookupChain, h, ih, show ¬ key = e.1 from fun hh => h hh.symm]

theorem lookupChain_append_left (b₁ b₂ : List (String × JsVal)) (key : String) (v : JsVal)
    (h : lookupChain b₁ key = some v) :
    lookupChain (b₁ ++ b₂) key = some v := by
  induction b₁ with
  | nil => simp [lookupChain] at h
  | cons e rest ih =>
    by_cases he : e.1 = key <;> simp_all [lookupChain, he]

theorem lookupChain_append_right (b₁ b₂ : List (String × JsVal)) (key : String)
    (h : lookupChain b₁ key = none) :
    lookupChain (b₁ ++ b₂) key = lookupChain b₂ key := by
  induction b₁ with
  | nil => rfl
  | cons e rest ih =>
    by_cases he : e.1 = key <;> simp_all [lookupChain, he]

theorem lookupChain_concat_self (b : List (String × JsVal)) (key : String) (v : JsVal)
    (h : lookupChain b key = none) :
    lookupChain (b ++ [(key, v)]) key = some v := by
  rw [lookupChain_append_right b _ key h]; simp [lookupChain]

theorem lookupChain_concat_ne (b : List (String × JsVal)) (key k' : String) (v : JsVal)
    (h : k' ≠ key) :
    lookupChain (b ++ [(key, v)]) k' = lookupChain b k' := by
  induction b with
  | nil => simp [lookupChain, show ¬ key = k' from fun hh => h hh.symm]
  | cons e rest ih =>
    by_cases he : e.1 = k' <;> simp_all [lookupChain, he]

theorem setChain_eq_none_iff (b : List (String × JsVal)) (key : String) (v : JsVal) :
    setChain b key v = none ↔ lookupChain b key = none := by
  induction b with
  | nil => simp [setChain, lookupChain]
  | cons e rest ih =>
    by_cases h : e.1 = key <;> simp [setChain, lookupChain, h, ih]

theorem setChain_some_spec (b b' : List (String × JsVal)) (key : String) (v : JsVal)
    (h : setChain b key v = some b') :
    b'.map Prod.fst = b.map Prod.fst ∧ b'.length = b.length ∧
    lookupChain b' key = some v ∧
    ∀ k', k' ≠ key → lookupChain b' k' = lookupChain b k' := by
  induction b generalizing b' with
  | nil => simp [setChain] at h
  | cons e rest ih =>
    by_cases he : e.1 = key
    · obtain ⟨k0, v0⟩ := e
      simp only at he
      subst he
      simp only [setChain, eq_self_iff_true, if_true, Option.some_inj] at h
      subst h
      refine ⟨by simp, by simp, by simp [lookupChain], ?_⟩
      intro k' hk'
      simp [lookupChain, show ¬ k0 = k' from fun hh => hk' hh.symm]
    · simp only [setChain, he, if_false, Option.map_eq_some'] at h
      obtain ⟨rest', hrest', rfl⟩ := h
      obtain ⟨h1, h2, h3, h4⟩ := ih rest' hrest'
      refine ⟨by simp [h1], by simp [h2], ?_, ?_⟩
      · simp [lookupChain, he, h3]
      · intro k' hk'
        by_cases hek : e.1 = k' <;> simp [lookupChain, hek, h4 k' hk']

theorem removeChain_eq_none_iff (b : List (String × JsVal)) (key : String) :
    removeChain b key = none ↔ lookupChain b key = none := by
  induction b with
  | nil => simp [removeChain, lookupChain]
  | cons e rest ih =>
    by_cases h : e.1 = key <;> simp [removeChain, lookupChain, h, ih]

theorem removeChain_some_spec (b b' : List (String × JsVal)) (key : String)
    (h : removeChain b key = some b') :
    b'.length + 1 = b.length ∧ b'.Sublist b := by
  induction b generalizing b' with
  | nil => simp [removeChain] at h
  | cons e rest ih =>
    by_cases he : e.1 = key
    · simp only [removeChain, he, if_true, Option.some_inj] at h
      subst h
      exact ⟨rfl, List.sublist_cons_self e rest⟩
    · simp only [removeChain, he, if_false, Option.map_eq_some'] at h
      obtain ⟨rest', hrest', rfl⟩ := h
      obtain ⟨h1, h2⟩ := ih rest' hrest'
      exact ⟨by simpa using h1, List.Sublist.cons₂ e h2⟩

/-- On a duplicate-free chain, splicing out the first node with the key
leaves no node with that key. -/
theorem removeChain_lookup_self (b b' : List (String × JsVal)) (key : String)
    (hnd : (b.map Prod.fst).Nodup) (h : removeChain b key = some b') :
    lookupChain b' key = none := by
  induction b generalizing b' with
  | nil => simp [removeChain] at h
  | cons e rest ih =>
    by_cases he : e.1 = key
    · simp only [removeChain, he, if_true, Option.some_inj] at h
      subst h
      rw [lookupChain_eq_none_iff]
      rw [List.map_cons, List.nodup_cons] at hnd
      rw [← he]; exact hnd.1
    · simp only [removeChain, he, if_false, Option.map_eq_some'] at h
      obtain ⟨rest', hrest', rfl⟩ := h
      rw [List.map_cons, List.nodup_cons] at hnd
      simp [lookupChain, he, ih rest' hnd.2 hrest']

/-- Splicing preserves the other keys' first-match values. -/
theorem removeChain_lookup_ne (b b' : List (String × JsVal)) (key k' : String)
    (hnd : (b.map Prod.fst).Nodup) (h : removeChain b key = some b') (hk : k' ≠ key) :
    lookupChain b' k' = lookupChain b k' := by
  induction b generalizing b' with
  | nil => simp [removeChain] at h
  | cons e rest ih =>
    by_cases he : e.1 = key
    · simp only [removeChain, he, if_true, Option.some_inj] at h
      subst h
      have : ¬ e.1 = k' := by rw [he]; exact fun hh => hk hh.symm
      simp [lookupChain, this]
    · simp only [removeChain, he, if_false, Option.map_eq_some'] at h
      obtain ⟨rest', hrest', rfl⟩ := h
      rw [List.map_cons, List.nodup_cons] at hnd
      by_cases hek : e.1 = k' <;> simp [lookupChain, hek, ih rest' hnd.2 hrest']

/-! ### Bucket-array traversal lemmas

`f` abstracts the bucket-index function `key ↦ abs(hash key) % capacity`;
the hypothesis says every entry of bucket `i` has index `off + i` (the
bucket array viewed from offset `off`). -/

theorem mem_flatten_keys_ge (f : String → Nat) (bs : List (List (String × JsVal)))
    (off : Nat) (hoff : ∀ i e, e ∈ bs.getD i [] → f e.1 = off + i) :
    ∀ k ∈ bs.flatten.map Prod.fst, off ≤ f k := by
  induction bs generalizing off with
  | nil => simp
  | cons b rest ih =>
    have hb : ∀ e ∈ b, f e.1 = off := fun e he => by
      simpa using hoff 0 e (by simpa using he)
    have hrest : ∀ i e, e ∈ rest.getD i [] → f e.1 = (off + 1) + i := fun i e he => by
      have := hoff (i + 1) e (by simpa using he)
      omega
    intro k hk
    rw [List.flatten_cons, List.map_append, List.mem_append] at hk
    rcases hk with hk | hk
    · obtain ⟨e, he, rfl⟩ := List.mem_map.mp hk
      exact (hb e he).ge
    · have := ih (off + 1) hrest k hk
      omega

theorem lookupChain_flatten_eq (f : String → Nat) (bs : List (List (String × JsVal)))
    (off : Nat) (k : String) (hoff : ∀ i e, e ∈ bs.getD i [] → f e.1 = off + i) :
    lookupChain bs.flatten k =
      if off ≤ f k then lookupChain (bs.getD (f k - off) []) k else none := by
  induction bs generalizing off with
  | nil => simp [lookupChain]
  | cons b rest ih =>
    have hb : ∀ e ∈ b, f e.1 = off := fun e he => by
      simpa using hoff 0 e (by simpa using he)
    have hrest : ∀ i e, e ∈ rest.getD i [] → f e.1 = (off + 1) + i := fun i e he => by
      have := hoff (i + 1) e (by simpa using he)
      omega
    rw [List.flatten_cons]
    by_cases hfk : f k = off
    · cases hlb : lookupChain b k with
      | some v =>
        rw [lookupChain_append_left b _ k v hlb]
        simp [hfk, hlb]
      | none =>
        rw [lookupChain_append_right b _ k hlb, ih (off + 1) hrest]
        have : ¬ (off + 1 ≤ f k) := by omega
        simp [this, hfk, hlb]
    · have hlb : lookupChain b k = none := by
        rw [lookupChain_eq_none_iff]
        intro hmem
        obtain ⟨e, he, rfl⟩ := List.mem_map.mp hmem
        exact hfk (hb e he)
      rw [lookupChain_append_right b _ k hlb, ih (off + 1) hrest]
      by_cases hle : off ≤ f k
      · have hle1 : off + 1 ≤ f k := by omega
        have harith : f k - off = (f k - (off + 1)) + 1 := by omega
        simp [hle, hle1, harith]
      · have : ¬ (off + 1 ≤ f k) := by omega
        simp [hle, this]

theorem nodup_flatten_keys (f : String → Nat) (bs : List (List (String × JsVal)))
    (off : Nat) (hoff : ∀ i e, e ∈ bs.getD i [] → f e.1 = off + i)
    (hnd : ∀ i, ((bs.getD i []).map Prod.fst).Nodup) :
    (bs.flatten.map Prod.fst).Nodup := by
  induction bs generalizing off with
  | nil => simp
  | cons b rest ih =>
    have hb : ∀ e ∈ b, f e.1 = off := fun e he => by
      simpa using hoff 0 e (by simpa using he)
    have hrest : ∀ i e, e ∈ rest.getD i [] → f e.1 = (off + 1) + i := fun i e he => by
      have := hoff (i + 1) e (by simpa using he)
      omega
    have hndrest : ∀ i, ((rest.getD i []).map Prod.fst).Nodup := fun i => by
      simpa using hnd (i + 1)
    rw [List.flatten_cons, List.map_append, List.nodup_append]
    refine ⟨by simpa using hnd 0, ih (off + 1) hrest hndrest, ?_⟩
    intro k hk hk'
    obtain ⟨e, he, rfl⟩ := List.mem_map.mp hk
    have h1 : f e.1 = off := hb e he
    have h2 : off + 1 ≤ f e.1 := mem_flatten_keys_ge f rest (off + 1) hrest e.1 hk'
    omega

/-! ### The `HashMap` well-formedness invariant -/

/-- Internal consistency of a `HashMap` state: the bucket array has length
`capacity > 0`, `loadFactor` is positive, `size` counts the live entries,
every entry sits in the bucket its key hashes to, and no bucket chain holds
two nodes with the same key. -/
structure HashMap.WF (m : HashMap) : Prop where
  storage_len : m.storage.length = m.capacity
  cap_pos : 0 < m.capacity
  lf_pos : 0 < m.loadFactor
  size_eq : m.size = (m.storage.map List.length).sum
  idx_consistent : ∀ i e, e ∈ m.storage.getD i [] → (HashMap.hash e.1).natAbs % m.capacity = i
  bucket_nodup : ∀ i, ((m.storage.getD i []).map Prod.fst).Nodup

theorem HashMap.get_eq_lookup (m : HashMap) (key : String) :
    m.get key = (m.lookup key).getD JsVal.null :=
  getChain_eq_lookup _ key

theorem HashMap.has_eq_lookup (m : HashMap) (key : String) :
    m.has key = (m.lookup key).isSome :=
  hasChain_eq_lookup _ key

theorem HashMap.WF.lookup_entries (m : HashMap) (h : m.WF) (k : String) :
    lookupChain m.entries k = m.lookup k := by
  have := lookupChain_flatten_eq (fun key => (HashMap.hash key).natAbs % m.capacity)
    m.storage 0 k (by simpa using h.idx_consistent)
  simpa [HashMap.entries, HashMap.lookup, HashMap._getIndex] using this

theorem HashMap.WF.entries_keys_nodup (m : HashMap) (h : m.WF) :
    (m.entries.map Prod.fst).Nodup :=
  nodup_flatten_keys (fun key => (HashMap.hash key).natAbs % m.capacity)
    m.storage 0 (by simpa using h.idx_consistent) h.bucket_nodup

theorem HashMap.WF.entries_length (m : HashMap) (h : m.WF) :
    m.entries.length = m.size := by
  rw [HashMap.entries, List.length_flatten, h.size_eq]

theorem HashMap._setRaw_eq (m : HashMap) (key : String) (value : JsVal) :
    m._setRaw key value =
      match setChain (m.storage.getD ((HashMap.hash key).natAbs % m.capacity) []) key value with
      | some bucket' =>
        ({ m with storage := m.storage.set ((HashMap.hash key).natAbs % m.capacity) bucket' },
          false)
      | none =>
        ({ m with
            storage := m.storage.set ((HashMap.hash key).natAbs % m.capacity)
              ((m.storage.getD ((HashMap.hash key).natAbs % m.capacity) []) ++ [(key, value)]),
            size := m.size + 1 },
          true) := rfl

/-- Full characterisation of the bucket update of `set` on a well-formed
table: well-formedness is preserved, `loadFactor` and `capacity` are
untouched, `size` grows by one exactly on a fresh key, the returned flag is
the freshness flag, and the key-value mapping is the pointwise update. -/
theorem HashMap.setRaw_spec (m : HashMap) (key : String) (value : JsVal) (h : m.WF) :
    (m._setRaw key value).1.WF ∧
    (m._setRaw key value).1.loadFactor = m.loadFactor ∧
    (m._setRaw key value).1.capacity = m.capacity ∧
    (m._setRaw key value).1.size = (if (m.lookup key).isSome then m.size else m.size + 1) ∧
    ((m._setRaw key value).2 = !(m.lookup key).isSome) ∧
    ∀ k', (m._setRaw key value).1.lookup k' = if k' = key then some value else m.lookup k' := by
  have hjlen : (HashMap.hash key).natAbs % m.capacity < m.storage.length := by
    rw [h.storage_len]; exact Nat.mod_lt _ h.cap_pos
  have hlook : m.lookup key
      = lookupChain (m.storage.getD ((HashMap.hash key).natAbs % m.capacity) []) key := rfl
  rw [HashMap._setRaw_eq]
  cases hsc : setChain (m.storage.getD ((HashMap.hash key).natAbs % m.capacity) []) key value with
  | some b' =>
    dsimp only
    obtain ⟨hkeys, hlen, hself, hother⟩ := setChain_some_spec _ b' key value hsc
    have hsome : (m.lookup key).isSome = true := by
      rw [hlook]
      cases hl : lookupChain (m.storage.getD ((HashMap.hash key).natAbs % m.capacity) []) key with
      | none =>
        rw [← setChain_eq_none_iff _ _ value, hsc] at hl
        cases hl
      | some v => rfl
    refine ⟨?_, rfl, rfl, by simp [hsome], by simp [hsome], ?_⟩
    · refine ⟨by simpa using h.storage_len, h.cap_pos, h.lf_pos, ?_, ?_, ?_⟩
      · show m.size
            = ((m.storage.set ((HashMap.hash key).natAbs % m.capacity) b').map List.length).sum
        have hs := sum_length_set m.storage ((HashMap.hash key).natAbs % m.capacity) b' hjlen
        have hsz := h.size_eq
        omega
      · intro i e he
        show (HashMap.hash e.1).natAbs % m.capacity = i
        dsimp only at he
        by_cases hij : i = (HashMap.hash key).natAbs % m.capacity
        · subst hij
          rw [getD_set_self _ _ _ _ hjlen] at he
          have hmem : e.1 ∈ b'.map Prod.fst := List.mem_map_of_mem Prod.fst he
          rw [hkeys] at hmem
          obtain ⟨e₀, he₀, heq⟩ := List.mem_map.mp hmem
          have := h.idx_consistent ((HashMap.hash key).natAbs % m.capacity) e₀ he₀
          rw [← heq]
          exact this
        · rw [getD_set_ne _ _ _ _ _ (fun hh => hij hh.symm)] at he
          exact h.idx_consistent i e he
      · intro i
        dsimp only
        by_cases hij : i = (HashMap.hash key).natAbs % m.capacity
        · subst hij
          rw [getD_set_self _ _ _ _ hjlen, hkeys]
          exact h.bucket_nodup _
        · rw [getD_set_ne _ _ _ _ _ (fun hh => hij hh.symm)]
          exact h.bucket_nodup i
    · intro k'
      show lookupChain _ k' = _
      simp only [HashMap.lookup, HashMap._getIndex] at hlook ⊢
      by_cases hk' : k' = key
      · subst hk'
        rw [if_pos rfl, getD_set_self _ _ _ _ hjlen]
        exact hself
      · rw [if_neg hk']
        by_cases hjj : (HashMap.hash k').natAbs % m.capacity
            = (HashMap.hash key).natAbs % m.capacity
        · rw [hjj, getD_set_self _ _ _ _ hjlen]
          exact hother k' hk'
        · rw [getD_set_ne _ _ _ _ _ (fun hh => hjj hh.symm)]
  | none =>
    dsimp only
    have hnone : m.lookup key = none := (setChain_eq_none_iff _ key value).mp hsc
    have hfresh : key ∉ (m.storage.getD ((HashMap.hash key).natAbs % m.capacity) []).map Prod.fst := by
      rw [hlook] at hnone
      exact (lookupChain_eq_none_iff _ key).mp hnone
    refine ⟨?_, rfl, rfl, by simp [hnone], by simp [hnone], ?_⟩
    · refine ⟨by simpa using h.storage_len, h.cap_pos, h.lf_pos, ?_, ?_, ?_⟩
      · show m.size + 1
            = ((m.storage.set ((HashMap.hash key).natAbs % m.capacity)
                ((m.storage.getD ((HashMap.hash key).natAbs % m.capacity) [])
                  ++ [(key, value)])).map List.length).sum
        have hs := sum_length_set m.storage ((HashMap.hash key).natAbs % m.capacity)
          ((m.storage.getD ((HashMap.hash key).natAbs % m.capacity) []) ++ [(key, value)]) hjlen
        have hsz := h.size_eq
        rw [List.length_append] at hs
        simp only [List.length_cons, List.length_nil] at hs
        omega
      · intro i e he
        show (HashMap.hash e.1).natAbs % m.capacity = i
        dsimp only at he
        by_cases hij : i = (HashMap.hash key).natAbs % m.capacity
        · subst hij
          rw [getD_set_self _ _ _ _ hjlen] at he
          rcases List.mem_append.mp he with he | he
          · exact h.idx_consistent _ e he
          · rcases List.mem_singleton.mp he with rfl
            rfl
        · rw [getD_set_ne _ _ _ _ _ (fun hh => hij hh.symm)] at he
          exact h.idx_consistent i e he
      · intro i
        dsimp only
        by_cases hij : i = (HashMap.hash key).natAbs % m.capacity
        · subst hij
          rw [getD_set_self _ _ _ _ hjlen, List.map_append, List.nodup_append]
          refine ⟨h.bucket_nodup _, by simp, ?_⟩
          intro k hk hk'
          simp only [List.map_cons, List.map_nil, List.mem_singleton] at hk'
          subst hk'
          exact hfresh hk
        · rw [getD_set_ne _ _ _ _ _ (fun hh => hij hh.symm)]
          exact h.bucket_nodup i
    · intro k'
      show lookupChain _ k' = _
      simp only [HashMap.lookup, HashMap._getIndex] at hlook hnone ⊢
      by_cases hk' : k' = key
      · subst hk'
        rw [if_pos rfl, getD_set_self _ _ _ _ hjlen]
        exact lookupChain_concat_self _ k' value hnone
      · rw [if_neg hk']
        by_cases hjj : (HashMap.hash k').natAbs % m.capacity
            = (HashMap.hash key).natAbs % m.capacity
        · rw [hjj, getD_set_self _ _ _ _ hjlen]
          exact lookupChain_concat_ne _ key k' value hk'
        · rw [getD_set_ne _ _ _ _ _ (fun hh => hjj hh.symm)]

theorem HashMap.setF_zero (m : HashMap) (key : String) (value : JsVal) :
    HashMap.setF 0 m key value = (m._setRaw key value).1 := rfl

theorem HashMap.setF_succ (fuel : Nat) (m : HashMap) (key : String) (value : JsVal) :
    HashMap.setF (fuel + 1) m key value =
      if (m._setRaw key value).2 && (m._setRaw key value).1._shouldResize then
        (m._setRaw key value).1.entries.foldl
          (fun acc e => HashMap.setF fuel acc e.1 e.2) (m._setRaw key value).1.emptyDouble
      else (m._setRaw key value).1 := rfl

theorem HashMap.emptyDouble_wf (m : HashMap) (h1 : 0 < m.capacity) (h2 : 0 < m.loadFactor) :
    m.emptyDouble.WF := by
  refine ⟨?_, ?_, ?_, ?_, ?_, ?_⟩
  · simp [HashMap.emptyDouble]
  · simpa [HashMap.emptyDouble] using Nat.succ_le_of_lt h1
  · exact h2
  · simp [HashMap.emptyDouble, sum_length_replicate_nil]
  · intro i e he
    rw [show m.emptyDouble.storage = List.replicate (m.capacity * 2) [] from rfl,
      getD_replicate_nil] at he
    cases he
  · intro i
    rw [show m.emptyDouble.storage = List.replicate (m.capacity * 2) [] from rfl,
      getD_replicate_nil]
    simp

theorem HashMap.emptyDouble_lookup (m : HashMap) (k : String) :
    m.emptyDouble.lookup k = none := by
  rw [HashMap.lookup, show m.emptyDouble.storage = List.replicate (m.capacity * 2) [] from rfl,
    getD_replicate_nil]
  rfl

/-- Re-inserting a duplicate-free list of fresh entries through `setF`:
well-formedness is preserved, the size grows by the number of entries, the
capacity never shrinks, and the final mapping is the union.  The hypothesis
`ihset` is the `setF` specification at the same fuel. -/
theorem HashMap.reinsert_spec (fuel : Nat)
    (ihset : ∀ (m : HashMap) (key : String) (value : JsVal), m.WF →
      (HashMap.setF fuel m key value).WF ∧
      (HashMap.setF fuel m key value).loadFactor = m.loadFactor ∧
      m.capacity ≤ (HashMap.setF fuel m key value).capacity ∧
      (HashMap.setF fuel m key value).size
        = (if (m.lookup key).isSome then m.size else m.size + 1) ∧
      ∀ k', (HashMap.setF fuel m key value).lookup k'
        = if k' = key then some value else m.lookup k') :
    ∀ (pending : List (String × JsVal)) (acc : HashMap), acc.WF →
      (pending.map Prod.fst).Nodup →
      (∀ e ∈ pending, acc.lookup e.1 = none) →
      (pending.foldl (fun a e => HashMap.setF fuel a e.1 e.2) acc).WF ∧
      (pending.foldl (fun a e => HashMap.setF fuel a e.1 e.2) acc).loadFactor = acc.loadFactor ∧
      acc.capacity ≤ (pending.foldl (fun a e => HashMap.setF fuel a e.1 e.2) acc).capacity ∧
      (pending.foldl (fun a e => HashMap.setF fuel a e.1 e.2) acc).size
        = acc.size + pending.length ∧
      ∀ k', (pending.foldl (fun a e => HashMap.setF fuel a e.1 e.2) acc).lookup k'
        = match lookupChain pending k' with
          | some v => some v
          | none => acc.lookup k' := by
  intro pending
  induction pending with
  | nil =>
    intro acc hacc _ _
    exact ⟨hacc, rfl, le_refl _, by simp, fun k' => by simp [lookupChain]⟩
  | cons e rest ih =>
    intro acc hacc hnd hfresh
    have hfresh0 : acc.lookup e.1 = none := hfresh e (List.mem_cons_self e rest)
    obtain ⟨hWF', hlf', hcap', hsize', hlook'⟩ := ihset acc e.1 e.2 hacc
    rw [List.map_cons, List.nodup_cons] at hnd
    have hndrest : (rest.map Prod.fst).Nodup := hnd.2
    have hkey_notin : e.1 ∉ rest.map Prod.fst := hnd.1
    have hfreshrest : ∀ e' ∈ rest, (HashMap.setF fuel acc e.1 e.2).lookup e'.1 = none := by
      intro e' he'
      rw [hlook' e'.1, if_neg, hfresh e' (List.mem_cons_of_mem e he')]
      intro hh
      exact hkey_notin (hh ▸ List.mem_map_of_mem Prod.fst he')
    obtain ⟨g1, g2, g3, g4, g5⟩ := ih (HashMap.setF fuel acc e.1 e.2) hWF' hndrest hfreshrest
    rw [List.foldl_cons]
    refine ⟨g1, by rw [g2, hlf'], le_trans hcap' g3, ?_, ?_⟩
    · rw [g4, hsize', hfresh0]
      simp [Nat.add_assoc, Nat.add_comm 1 rest.length]
    · intro k'
      rw [g5 k', lookupChain]
      by_cases hk'e : e.1 = k'
      · have hrestnone : lookupChain rest k' = none := by
          rw [lookupChain_eq_none_iff]
          exact hk'e ▸ hkey_notin
        rw [if_pos hk'e, hrestnone, hlook' k', if_pos hk'e.symm]
      · cases hrest : lookupChain rest k' with
        | some v => rw [if_neg hk'e]
        | none =>
          rw [if_neg hk'e]
          show (HashMap.setF fuel acc e.1 e.2).lookup k' = acc.lookup k'
          rw [hlook' k', if_neg (fun hh => hk'e hh.symm)]

/-- The `setF` specification, by induction on the fuel: on a well-formed
table, `setF` preserves well-formedness and `loadFactor`, never shrinks
`capacity`, increments `size` exactly on a fresh key, and updates the
key-value mapping pointwise — regardless of whether a resize (of any
nesting depth, or a fuel-truncated one) happens. -/
theorem HashMap.setF_spec :
    ∀ (fuel : Nat) (m : HashMap) (key : String) (value : JsVal), m.WF →
      (HashMap.setF fuel m key value).WF ∧
      (HashMap.setF fuel m key value).loadFactor = m.loadFactor ∧
      m.capacity ≤ (HashMap.setF fuel m key value).capacity ∧
      (HashMap.setF fuel m key value).size
        = (if (m.lookup key).isSome then m.size else m.size + 1) ∧
      ∀ k', (HashMap.setF fuel m key value).lookup k'
        = if k' = key then some value else m.lookup k' := by
  intro fuel
  induction fuel with
  | zero =>
    intro m key value h
    obtain ⟨h1, h2, h3, h4, _, h6⟩ := HashMap.setRaw_spec m key value h
    exact ⟨h1, h2, le_of_eq h3.symm, h4, h6⟩
  | succ fuel ih =>
    intro m key value h
    obtain ⟨h1, h2, h3, h4, _, h6⟩ := HashMap.setRaw_spec m key value h
    rw [HashMap.setF_succ]
    by_cases hcond : ((m._setRaw key value).2 && (m._setRaw key value).1._shouldResize) = true
    · rw [if_pos hcond]
      have hnd : ((m._setRaw key value).1.entries.map Prod.fst).Nodup :=
        HashMap.WF.entries_keys_nodup _ h1
      have hfresh : ∀ e ∈ (m._setRaw key value).1.entries,
          (m._setRaw key value).1.emptyDouble.lookup e.1 = none :=
        fun e _ => HashMap.emptyDouble_lookup _ e.1
      have hed : (m._setRaw key value).1.emptyDouble.WF :=
        HashMap.emptyDouble_wf _ h1.cap_pos h1.lf_pos
      obtain ⟨g1, g2, g3, g4, g5⟩ :=
        HashMap.reinsert_spec fuel ih (m._setRaw key value).1.entries
          (m._setRaw key value).1.emptyDouble hed hnd hfresh
      refine ⟨g1, ?_, ?_, ?_, ?_⟩
      · rw [g2]
        exact h2
      · refine le_trans ?_ g3
        rw [show (m._setRaw key value).1.emptyDouble.capacity
            = (m._setRaw key value).1.capacity * 2 from rfl, h3]
        omega
      · rw [g4, show (m._setRaw key value).1.emptyDouble.size = 0 from rfl,
          HashMap.WF.entries_length _ h1, h4]
        omega
      · intro k'
        rw [g5 k']
        cases hent : lookupChain (m._setRaw key value).1.entries k' with
        | some v =>
          rw [HashMap.WF.lookup_entries _ h1 k'] at hent
          show some v = if k' = key then some value else m.lookup k'
          rw [← hent]
          exact h6 k'
        | none =>
          rw [HashMap.WF.lookup_entries _ h1 k'] at hent
          show (m._setRaw key value).1.emptyDouble.lookup k'
              = if k' = key then some value else m.lookup k'
          rw [HashMap.emptyDouble_lookup, ← hent]
          exact h6 k' 
    · rw [if_neg hcond]
      exact ⟨h1, h2, le_of_eq h3.symm, h4, h6⟩

theorem rat_mul_den (q : ℚ) : q * (q.den : ℚ) = (q.num : ℚ) := by
  have h := Rat.num_div_den q
  have hden : ((q.den : ℚ)) ≠ 0 := by
    have := q.den_pos
    positivity
  calc q * (q.den : ℚ) = ((q.num : ℚ) / (q.den : ℚ)) * (q.den : ℚ) := by rw [h]
  _ = (q.num : ℚ) := div_mul_cancel₀ _ hden

/-- The load-factor invariant: `size ≤ loadFactor * capacity` (equivalently
`size / capacity ≤ loadFactor` whenever `capacity > 0`). -/
def HashMap.Bal (m : HashMap) : Prop :=
  (m.size : ℚ) ≤ m.loadFactor * (m.capacity : ℚ)

/-- The cross-multiplied comparison in `_shouldResize` is exactly the
rational comparison `size / capacity > loadFactor` when `capacity > 0`. -/
theorem HashMap.shouldResize_iff (m : HashMap) (h : 0 < m.capacity) :
    m._shouldResize = true ↔ (m.size : ℚ) / (m.capacity : ℚ) > m.loadFactor := by
  have hcap : (0:ℚ) < (m.capacity : ℚ) := by exact_mod_cast h
  have hden : (0:ℚ) < (m.loadFactor.den : ℚ) := by
    have := m.loadFactor.den_pos
    positivity
  rw [HashMap._shouldResize, decide_eq_true_eq, gt_iff_lt, gt_iff_lt, lt_div_iff₀ hcap]
  rw [show m.loadFactor * (m.capacity : ℚ)
      = (m.loadFactor * (m.loadFactor.den : ℚ)) * (m.capacity : ℚ) / (m.loadFactor.den : ℚ)
    from by
      field_simp
      rw [← rat_mul_den m.loadFactor]
      ring]
  rw [rat_mul_den, div_lt_iff₀ hden]
  constructor <;> intro hh <;> exact_mod_cast hh

theorem HashMap.bal_iff (m : HashMap) :
    m.Bal ↔ (m.size : ℤ) * (m.loadFactor.den : ℤ) ≤ m.loadFactor.num * (m.capacity : ℤ) := by
  have hden : (0:ℚ) < (m.loadFactor.den : ℚ) := by
    have := m.loadFactor.den_pos
    positivity
  rw [HashMap.Bal, ← mul_le_mul_right hden, mul_right_comm, rat_mul_den]
  constructor <;> intro hh <;> exact_mod_cast hh

theorem HashMap.shouldResize_eq_false_iff (m : HashMap) :
    m._shouldResize = false ↔ m.Bal := by
  rw [HashMap.bal_iff, HashMap._shouldResize, decide_eq_false_iff_not, not_lt]

/-- During a rehash, re-inserting the (fresh, duplicate-free) old entries
keeps the load-factor invariant, provided the fuel still dominates the final
entry count.  `ihbal` is the `setF` balance statement at the same fuel. -/
theorem HashMap.reinsert_bal (fuel : Nat)
    (ihbal : ∀ (m : HashMap) (key : String) (value : JsVal), m.WF → m.Bal →
      ((m.size : ℚ) + 1) ≤ m.loadFactor * (m.capacity : ℚ) * 2 ^ fuel →
      (HashMap.setF fuel m key value).Bal) :
    ∀ (pending : List (String × JsVal)) (acc : HashMap), acc.WF →
      (pending.map Prod.fst).Nodup →
      (∀ e ∈ pending, acc.lookup e.1 = none) →
      acc.Bal →
      ((acc.size : ℚ) + pending.length) ≤ acc.loadFactor * (acc.capacity : ℚ) * 2 ^ fuel →
      (pending.foldl (fun a e => HashMap.setF fuel a e.1 e.2) acc).Bal := by
  intro pending
  induction pending with
  | nil =>
    intro acc _ _ _ hbal _
    exact hbal
  | cons e rest ih =>
    intro acc hacc hnd hfresh hbal hbound
    simp only [List.length_cons] at hbound
    have hfresh0 : acc.lookup e.1 = none := hfresh e (List.mem_cons_self e rest)
    obtain ⟨hWF', hlf', hcap', hsize', hlook'⟩ := HashMap.setF_spec fuel acc e.1 e.2 hacc
    rw [List.map_cons, List.nodup_cons] at hnd
    have hfreshrest : ∀ e' ∈ rest, (HashMap.setF fuel acc e.1 e.2).lookup e'.1 = none := by
      intro e' he'
      rw [hlook' e'.1, if_neg, hfresh e' (List.mem_cons_of_mem e he')]
      intro hh
      exact hnd.1 (hh ▸ List.mem_map_of_mem Prod.fst he')
    have hsize1 : (HashMap.setF fuel acc e.1 e.2).size = acc.size + 1 := by
      rw [hsize', hfresh0]
      simp
    have hstep : ((acc.size : ℚ) + 1) ≤ acc.loadFactor * (acc.capacity : ℚ) * 2 ^ fuel := by
      refine le_trans ?_ hbound
      have : (0:ℚ) ≤ (rest.length : ℚ) := by positivity
      push_cast
      linarith
    have hbal' : (HashMap.setF fuel acc e.1 e.2).Bal :=
      ihbal acc e.1 e.2 hacc hbal hstep
    rw [List.foldl_cons]
    refine ih (HashMap.setF fuel acc e.1 e.2) hWF' hnd.2 hfreshrest hbal' ?_
    rw [hsize1, hlf']
    have hmono : acc.loadFactor * (acc.capacity : ℚ) * 2 ^ fuel
        ≤ acc.loadFactor * ((HashMap.setF fuel acc e.1 e.2).capacity : ℚ) * 2 ^ fuel := by
      have h2 : (0:ℚ) ≤ 2 ^ fuel := by positivity
      have hc : ((acc.capacity : ℚ)) ≤ ((HashMap.setF fuel acc e.1 e.2).capacity : ℚ) := by
        exact_mod_cast hcap'
      have hlf0 : (0:ℚ) ≤ acc.loadFactor := le_of_lt hacc.lf_pos
      exact mul_le_mul_of_nonneg_right (mul_le_mul_of_nonneg_left hc hlf0) h2
    refine le_trans ?_ (le_trans hbound hmono)
    push_cast
    linarith

/-- `setF` restores the load-factor invariant, given enough fuel: any
insertion that leaves `size/capacity > loadFactor` triggers a synchronous
resize (possibly nested), after which the invariant holds again. -/
theorem HashMap.setF_bal :
    ∀ (fuel : Nat) (m : HashMap) (key : String) (value : JsVal), m.WF → m.Bal →
      ((m.size : ℚ) + 1) ≤ m.loadFactor * (m.capacity : ℚ) * 2 ^ fuel →
      (HashMap.setF fuel m key value).Bal := by
  intro fuel
  induction fuel with
  | zero =>
    intro m key value h hbal hbound
    obtain ⟨h1, h2, h3, h4, _, _⟩ := HashMap.setRaw_spec m key value h
    rw [HashMap.setF_zero, HashMap.Bal, h2, h3, h4]
    rw [pow_zero, mul_one] at hbound
    cases hl : (m.lookup key).isSome with
    | false =>
      rw [if_neg Bool.false_ne_true]
      push_cast
      exact hbound
    | true =>
      rw [if_pos rfl]
      exact hbal
  | succ fuel ih =>
    intro m key value h hbal hbound
    obtain ⟨h1, h2, h3, h4, h5, _⟩ := HashMap.setRaw_spec m key value h
    rw [HashMap.setF_succ]
    by_cases hcond : ((m._setRaw key value).2 && (m._setRaw key value).1._shouldResize) = true
    · rw [if_pos hcond]
      rw [Bool.and_eq_true] at hcond
      have hfreshkey : (m.lookup key).isSome = false := by
        have := h5
        rw [hcond.1] at this
        cases hll : (m.lookup key).isSome with
        | false => rfl
        | true => rw [hll] at this; cases this
      have hsz1 : (m._setRaw key value).1.size = m.size + 1 := by
        rw [h4, hfreshkey]
        simp
      have hnd : ((m._setRaw key value).1.entries.map Prod.fst).Nodup :=
        HashMap.WF.entries_keys_nodup _ h1
      have hfresh : ∀ e ∈ (m._setRaw key value).1.entries,
          (m._setRaw key value).1.emptyDouble.lookup e.1 = none :=
        fun e _ => HashMap.emptyDouble_lookup _ e.1
      have hed : (m._setRaw key value).1.emptyDouble.WF :=
        HashMap.emptyDouble_wf _ h1.cap_pos h1.lf_pos
      refine HashMap.reinsert_bal fuel ih (m._setRaw key value).1.entries
        (m._setRaw key value).1.emptyDouble hed hnd hfresh ?_ ?_
      · rw [HashMap.Bal]
        have hlf0 : (0:ℚ) ≤ m.loadFactor := le_of_lt h.lf_pos
        have : (0:ℚ) ≤ ((m._setRaw key value).1.emptyDouble.capacity : ℚ) := by positivity
        rw [show (m._setRaw key value).1.emptyDouble.size = 0 from rfl,
          show (m._setRaw key value).1.emptyDouble.loadFactor = m.loadFactor from by
            rw [show (m._setRaw key value).1.emptyDouble.loadFactor
                = (m._setRaw key value).1.loadFactor from rfl, h2]]
        push_cast
        positivity
      · rw [HashMap.WF.entries_length _ h1, hsz1,
          show (m._setRaw key value).1.emptyDouble.size = 0 from rfl,
          show (m._setRaw key value).1.emptyDouble.loadFactor = m.loadFactor from by
            rw [show (m._setRaw key value).1.emptyDouble.loadFactor
                = (m._setRaw key value).1.loadFactor from rfl, h2],
          show (m._setRaw key value).1.emptyDouble.capacity
              = (m._setRaw key value).1.capacity * 2 from rfl, h3]
        rw [show m.loadFactor * ((m.capacity * 2 : ℕ) : ℚ) * 2 ^ fuel
            = m.loadFactor * (m.capacity : ℚ) * 2 ^ (fuel + 1) from by
          push_cast
          ring]
        refine le_trans ?_ hbound
        push_cast
        linarith
    · rw [if_neg hcond]
      cases hr2 : (m._setRaw key value).2 with
      | false =>
        have hupdate : (m.lookup key).isSome = true := by
          rw [hr2] at h5
          cases hll : (m.lookup key).isSome with
          | true => rfl
          | false => rw [hll] at h5; cases h5
        rw [HashMap.Bal, h2, h3, h4, if_pos hupdate]
        exact hbal
      | true =>
        have hsr : (m._setRaw key value).1._shouldResize = false := by
          cases hsr : (m._setRaw key value).1._shouldResize with
          | false => rfl
          | true => exact absurd (by rw [hr2, hsr]; rfl) hcond
        exact (HashMap.shouldResize_eq_false_iff _).mp hsr

/-- The fuel supplied by `HashMap.set` is sufficient:
`(size+1) ≤ loadFactor * capacity * 2 ^ fuel`. -/
theorem HashMap.set_fuel_sufficient (m : HashMap) (hcap : 0 < m.capacity)
    (hlf : 0 < m.loadFactor) :
    ((m.size : ℚ) + 1) ≤ m.loadFactor * (m.capacity : ℚ)
      * 2 ^ ((m.size + 1) * m.loadFactor.den + 1) := by
  have hnum1 : (1:ℚ) ≤ (m.loadFactor.num : ℚ) := by
    have h0 : (0:ℤ) < m.loadFactor.num := Rat.num_pos.mpr hlf
    exact_mod_cast h0
  have hcap1 : (1:ℚ) ≤ (m.capacity : ℚ) := by exact_mod_cast hcap
  have hlf0 : (0:ℚ) ≤ m.loadFactor := le_of_lt hlf
  have hpowN : ((m.size + 1) * m.loadFactor.den : ℕ)
      < 2 ^ ((m.size + 1) * m.loadFactor.den + 1) := by
    calc (m.size + 1) * m.loadFactor.den < 2 ^ ((m.size + 1) * m.loadFactor.den) :=
      Nat.lt_two_pow _
    _ ≤ 2 ^ ((m.size + 1) * m.loadFactor.den + 1) :=
      Nat.pow_le_pow_right (by norm_num) (Nat.le_succ _)
  have hpow : ((m.size : ℚ) + 1) * (m.loadFactor.den : ℚ)
      ≤ 2 ^ ((m.size + 1) * m.loadFactor.den + 1) := by
    have := hpowN.le
    have hcast : (((m.size + 1) * m.loadFactor.den : ℕ) : ℚ)
        ≤ ((2 ^ ((m.size + 1) * m.loadFactor.den + 1) : ℕ) : ℚ) := by exact_mod_cast this
    push_cast at hcast
    exact hcast
  have step1 : ((m.size : ℚ) + 1) ≤ (m.loadFactor.num : ℚ) * ((m.size : ℚ) + 1) := by
    have hpos : (0:ℚ) ≤ (m.size : ℚ) + 1 := by positivity
    exact le_mul_of_one_le_left hpos hnum1
  have step2 : (m.loadFactor.num : ℚ) * ((m.size : ℚ) + 1)
      = m.loadFactor * (((m.size : ℚ) + 1) * (m.loadFactor.den : ℚ)) := by
    rw [← rat_mul_den m.loadFactor]
    ring
  have step3 : m.loadFactor * (((m.size : ℚ) + 1) * (m.loadFactor.den : ℚ))
      ≤ m.loadFactor * 2 ^ ((m.size + 1) * m.loadFactor.den + 1) :=
    mul_le_mul_of_nonneg_left hpow hlf0
  have step4 : m.loadFactor * 2 ^ ((m.size + 1) * m.loadFactor.den + 1)
      ≤ m.loadFactor * (m.capacity : ℚ) * 2 ^ ((m.size + 1) * m.loadFactor.den + 1) := by
    have h2 : (0:ℚ) ≤ 2 ^ ((m.size + 1) * m.loadFactor.den + 1) := by positivity
    have := mul_le_mul_of_nonneg_right
      (le_mul_of_one_le_right hlf0 hcap1) h2
    exact this
  calc ((m.size : ℚ) + 1) ≤ (m.loadFactor.num : ℚ) * ((m.size : ℚ) + 1) := step1
  _ = m.loadFactor * (((m.size : ℚ) + 1) * (m.loadFactor.den : ℚ)) := step2
  _ ≤ m.loadFactor * 2 ^ ((m.size + 1) * m.loadFactor.den + 1) := step3
  _ ≤ m.loadFactor * (m.capacity : ℚ) * 2 ^ ((m.size + 1) * m.loadFactor.den + 1) := step4

/-- `set` preserves the load-factor invariant on well-formed states. -/
theorem HashMap.set_bal (m : HashMap) (key : String) (value : JsVal)
    (h : m.WF) (hbal : m.Bal) : (m.set key value).Bal :=
  HashMap.setF_bal _ m key value h hbal (HashMap.set_fuel_sufficient m h.cap_pos h.lf_pos)

/-! ### Capacity monotonicity without any well-formedness assumption -/

theorem HashMap.setRaw_capacity (m : HashMap) (key : String) (value : JsVal) :
    (m._setRaw key value).1.capacity = m.capacity := by
  rw [HashMap._setRaw_eq]
  cases setChain (m.storage.getD ((HashMap.hash key).natAbs % m.capacity) []) key value <;> rfl

theorem HashMap.setF_capacity_mono :
    ∀ (fuel : Nat) (m : HashMap) (key : String) (value : JsVal),
      m.capacity ≤ (HashMap.setF fuel m key value).capacity := by
  intro fuel
  induction fuel with
  | zero =>
    intro m key value
    rw [HashMap.setF_zero, HashMap.setRaw_capacity]
  | succ fuel ih =>
    intro m key value
    rw [HashMap.setF_succ]
    by_cases hcond : ((m._setRaw key value).2 && (m._setRaw key value).1._shouldResize) = true
    · rw [if_pos hcond]
      have hfold : ∀ (pending : List (String × JsVal)) (acc : HashMap),
          acc.capacity ≤ (pending.foldl (fun a e => HashMap.setF fuel a e.1 e.2) acc).capacity := by
        intro pending
        induction pending with
        | nil => intro acc; exact le_refl _
        | cons e rest ihp =>
          intro acc
          rw [List.foldl_cons]
          exact le_trans (ih acc e.1 e.2) (ihp (HashMap.setF fuel acc e.1 e.2))
      refine le_trans ?_ (hfold (m._setRaw key value).1.entries (m._setRaw key value).1.emptyDouble)
      rw [show (m._setRaw key value).1.emptyDouble.capacity
          = (m._setRaw key value).1.capacity * 2 from rfl, HashMap.setRaw_capacity]
      omega
    · rw [if_neg hcond, HashMap.setRaw_capacity]

theorem HashMap.set_capacity_mono (m : HashMap) (key : String) (value : JsVal) :
    m.capacity ≤ (m.set key value).capacity :=
  HashMap.setF_capacity_mono _ m key value

theorem getD_length_le_sum (l : List (List α)) (i : Nat) :
    (l.getD i []).length ≤ (l.map List.length).sum := by
  induction l generalizing i with
  | nil => simp
  | cons a l ih =>
    cases i with
    | zero => simp
    | succ i =>
      simp only [List.getD_cons_succ, List.map_cons, List.sum_cons]
      exact le_trans (ih i) (Nat.le_add_left _ _)

theorem HashMap.remove_eq (m : HashMap) (key : String) :
    m.remove key =
      match removeChain (m.storage.getD ((HashMap.hash key).natAbs % m.capacity) []) key with
      | some bucket' =>
        ({ m with
            storage := m.storage.set ((HashMap.hash key).natAbs % m.capacity) bucket',
            size := m.size - 1 },
          true)
      | none => (m, false) := rfl

/-- Full characterisation of `remove` on a well-formed table. -/
theorem HashMap.remove_spec (m : HashMap) (key : String) (h : m.WF) :
    (m.remove key).1.WF ∧
    (m.remove key).1.loadFactor = m.loadFactor ∧
    (m.remove key).1.capacity = m.capacity ∧
    ((m.remove key).2 = (m.lookup key).isSome) ∧
    ((m.remove key).2 = true → (m.remove key).1.size + 1 = m.size) ∧
    ((m.remove key).2 = false → (m.remove key).1 = m) ∧
    ∀ k', (m.remove key).1.lookup k' = if k' = key then none else m.lookup k' := by
  have hjlen : (HashMap.hash key).natAbs % m.capacity < m.storage.length := by
    rw [h.storage_len]; exact Nat.mod_lt _ h.cap_pos
  have hlook : m.lookup key
      = lookupChain (m.storage.getD ((HashMap.hash key).natAbs % m.capacity) []) key := rfl
  rw [HashMap.remove_eq]
  cases hrc : removeChain (m.storage.getD ((HashMap.hash key).natAbs % m.capacity) []) key with
  | none =>
    dsimp only
    have hnone : m.lookup key = none := by
      rw [hlook]
      exact (removeChain_eq_none_iff _ key).mp hrc
    refine ⟨h, rfl, rfl, ?_, ?_, fun _ => rfl, ?_⟩
    · rw [hnone]
      rfl
    · intro hh
      cases hh
    · intro k'
      by_cases hk' : k' = key
      · subst hk'
        rw [if_pos rfl, hnone]
      · rw [if_neg hk']
  | some b' =>
    dsimp only
    obtain ⟨hblen, hbsub⟩ := removeChain_some_spec _ b' key hrc
    have hnd := h.bucket_nodup ((HashMap.hash key).natAbs % m.capacity)
    have hsome : (m.lookup key).isSome = true := by
      rw [hlook]
      cases hl : lookupChain (m.storage.getD ((HashMap.hash key).natAbs % m.capacity) []) key with
      | none =>
        rw [← removeChain_eq_none_iff, hrc] at hl
        cases hl
      | some v => rfl
    have hsizege : 1 ≤ m.size := by
      rw [h.size_eq]
      calc 1 ≤ (m.storage.getD ((HashMap.hash key).natAbs % m.capacity) []).length := by omega
      _ ≤ (m.storage.map List.length).sum := getD_length_le_sum _ _
    refine ⟨?_, rfl, rfl, ?_, ?_, ?_, ?_⟩
    · refine ⟨by simpa using h.storage_len, h.cap_pos, h.lf_pos, ?_, ?_, ?_⟩
      · show m.size - 1
            = ((m.storage.set ((HashMap.hash key).natAbs % m.capacity) b').map List.length).sum
        have hs := sum_length_set m.storage ((HashMap.hash key).natAbs % m.capacity) b' hjlen
        have hsz := h.size_eq
        omega
      · intro i e he
        show (HashMap.hash e.1).natAbs % m.capacity = i
        dsimp only at he
        by_cases hij : i = (HashMap.hash key).natAbs % m.capacity
        · subst hij
          rw [getD_set_self _ _ _ _ hjlen] at he
          exact h.idx_consistent _ e (hbsub.subset he)
        · rw [getD_set_ne _ _ _ _ _ (fun hh => hij hh.symm)] at he
          exact h.idx_consistent i e he
      · intro i
        dsimp only
        by_cases hij : i = (HashMap.hash key).natAbs % m.capacity
        · subst hij
          rw [getD_set_self _ _ _ _ hjlen]
          exact List.Nodup.sublist (hbsub.map Prod.fst) hnd
        · rw [getD_set_ne _ _ _ _ _ (fun hh => hij hh.symm)]
          exact h.bucket_nodup i
    · rw [hsome]
    · intro _
      show m.size - 1 + 1 = m.size
      omega
    · intro hh
      cases hh
    · intro k'
      show lookupChain _ k' = _
      simp only [HashMap.lookup, HashMap._getIndex] at hlook ⊢
      by_cases hk' : k' = key
      · subst hk'
        rw [if_pos rfl, getD_set_self _ _ _ _ hjlen]
        exact removeChain_lookup_self _ b' k' hnd hrc
      · rw [if_neg hk']
        by_cases hjj : (HashMap.hash k').natAbs % m.capacity
            = (HashMap.hash key).natAbs % m.capacity
        · rw [hjj, getD_set_self _ _ _ _ hjlen]
          exact removeChain_lookup_ne _ b' key k' hnd hrc hk'
        · rw [getD_set_ne _ _ _ _ _ (fun hh => hjj hh.symm)]

theorem HashMap.create_wf (initialCapacity : Nat) (loadFactor : ℚ)
    (hc : 0 < initialCapacity) (hl : 0 < loadFactor) :
    (HashMap.create initialCapacity loadFactor).WF := by
  refine ⟨by simp [HashMap.create], hc, hl, ?_, ?_, ?_⟩
  · simp [HashMap.create, sum_length_replicate_nil]
  · intro i e he
    rw [show (HashMap.create initialCapacity loadFactor).storage
        = List.replicate initialCapacity [] from rfl, getD_replicate_nil] at he
    cases he
  · intro i
    rw [show (HashMap.create initialCapacity loadFactor).storage
        = List.replicate initialCapacity [] from rfl, getD_replicate_nil]
    simp

theorem HashMap.create_bal (initialCapacity : Nat) (loadFactor : ℚ) (hl : 0 < loadFactor) :
    (HashMap.create initialCapacity loadFactor).Bal := by
  rw [HashMap.Bal]
  show ((0 : Nat) : ℚ) ≤ loadFactor * (initialCapacity : ℚ)
  positivity

theorem HashMap.clear_wf (m : HashMap) (h : m.WF) : m.clear.WF := by
  refine ⟨by simp [HashMap.clear, h.storage_len.symm], h.cap_pos, h.lf_pos, ?_, ?_, ?_⟩
  · simp [HashMap.clear, sum_length_replicate_nil]
  · intro i e he
    rw [show m.clear.storage = List.replicate m.capacity [] from rfl, getD_replicate_nil] at he
    cases he
  · intro i
    rw [show m.clear.storage = List.replicate m.capacity [] from rfl, getD_replicate_nil]
    simp

theorem HashMap.clear_bal (m : HashMap) (h : m.WF) : m.clear.Bal := by
  rw [HashMap.Bal]
  show ((0 : Nat) : ℚ) ≤ m.loadFactor * (m.capacity : ℚ)
  have := h.lf_pos
  positivity

theorem HashMap.remove_bal (m : HashMap) (key : String) (h : m.WF) (hbal : m.Bal) :
    (m.remove key).1.Bal := by
  obtain ⟨_, h2, h3, _, _, _, _⟩ := HashMap.remove_spec m key h
  rw [HashMap.Bal, h2, h3]
  have hle : (m.remove key).1.size ≤ m.size := by
    rw [HashMap.remove_eq]
    cases removeChain (m.storage.getD ((HashMap.hash key).natAbs % m.capacity) []) key with
    | none => exact le_refl _
    | some b' => exact Nat.sub_le _ _
  refine le_trans ?_ hbal
  exact_mod_cast hle

/-- The reachable `HashMap` states: everything obtainable from a constructor
call with positive capacity and load factor in `(0, 1]` by any sequence of
`set` / `remove` / `clear` calls (the other operations do not mutate). -/
inductive HashMap.Reachable : HashMap → Prop where
  | init (initialCapacity : Nat) (loadFactor : ℚ) :
      0 < initialCapacity → 0 < loadFactor → loadFactor ≤ 1 →
      HashMap.Reachable (HashMap.create initialCapacity loadFactor)
  | set (m : HashMap) (key : String) (value : JsVal) :
      HashMap.Reachable m → HashMap.Reachable (m.set key value)
  | remove (m : HashMap) (key : String) :
      HashMap.Reachable m → HashMap.Reachable (m.remove key).1
  | clear (m : HashMap) : HashMap.Reachable m → HashMap.Reachable m.clear

/-- Every reachable state is well-formed and satisfies the load-factor
invariant. -/
theorem HashMap.reachable_wf_bal (m : HashMap) (h : m.Reachable) : m.WF ∧ m.Bal := by
  induction h with
  | init cap lf hc hl _ => exact ⟨HashMap.create_wf cap lf hc hl, HashMap.create_bal cap lf hl⟩
  | set m key value _ ih =>
    exact ⟨(HashMap.setF_spec _ m key value ih.1).1, HashMap.set_bal m key value ih.1 ih.2⟩
  | remove m key _ ih =>
    exact ⟨(HashMap.remove_spec m key ih.1).1, HashMap.remove_bal m key ih.1 ih.2⟩
  | clear m _ ih => exact ⟨HashMap.clear_wf m ih.1, HashMap.clear_bal m ih.1⟩

/-! ### The `HashSet` development, mirroring the map's -/

theorem contains_eq_true_iff (l : List String) (a : String) :
    l.contains a = true ↔ a ∈ l := by simp

theorem mem_flattenS_ge (f : String → Nat) (bs : List (List String)) (off : Nat)
    (hoff : ∀ i k, k ∈ bs.getD i [] → f k = off + i) :
    ∀ k ∈ bs.flatten, off ≤ f k := by
  induction bs generalizing off with
  | nil => simp
  | cons b rest ih =>
    have hb : ∀ k ∈ b, f k = off := fun k hk => by
      simpa using hoff 0 k (by simpa using hk)
    have hrest : ∀ i k, k ∈ rest.getD i [] → f k = (off + 1) + i := fun i k hk => by
      have := hoff (i + 1) k (by simpa using hk)
      omega
    intro k hk
    rw [List.flatten_cons, List.mem_append] at hk
    rcases hk with hk | hk
    · exact (hb k hk).ge
    · have := ih (off + 1) hrest k hk
      omega

theorem mem_flattenS_iff (f : String → Nat) (bs : List (List String)) (off : Nat) (k : String)
    (hoff : ∀ i k, k ∈ bs.getD i [] → f k = off + i) :
    k ∈ bs.flatten ↔ (off ≤ f k ∧ k ∈ bs.getD (f k - off) []) := by
  induction bs generalizing off with
  | nil => simp
  | cons b rest ih =>
    have hb : ∀ k' ∈ b, f k' = off := fun k' hk => by
      simpa using hoff 0 k' (by simpa using hk)
    have hrest : ∀ i k', k' ∈ rest.getD i [] → f k' = (off + 1) + i := fun i k' hk => by
      have := hoff (i + 1) k' (by simpa using hk)
      omega
    rw [List.flatten_cons, List.mem_append, ih (off + 1) hrest]
    by_cases hfk : f k = off
    · have h1 : ¬ (off + 1 ≤ f k) := by omega
      have h2 : f k - off = 0 := by omega
      simp only [h1, false_and, or_false, h2, hfk, le_refl, true_and]
      simp
    · have hnb : k ∉ b := fun hk => hfk (hb k hk)
      by_cases hle : off ≤ f k
      · have hle1 : off + 1 ≤ f k := by omega
        have harith : f k - off = (f k - (off + 1)) + 1 := by omega
        simp only [hnb, false_or, hle1, true_and, hle, harith, List.getD_cons_succ]
      · have h1 : ¬ (off + 1 ≤ f k) := by omega
        simp [hnb, h1, hle]

theorem nodup_flattenS (f : String → Nat) (bs : List (List String)) (off : Nat)
    (hoff : ∀ i k, k ∈ bs.getD i [] → f k = off + i)
    (hnd : ∀ i, (bs.getD i []).Nodup) :
    bs.flatten.Nodup := by
  induction bs generalizing off with
  | nil => simp
  | cons b rest ih =>
    have hb : ∀ k ∈ b, f k = off := fun k hk => by
      simpa using hoff 0 k (by simpa using hk)
    have hrest : ∀ i k, k ∈ rest.getD i [] → f k = (off + 1) + i := fun i k hk => by
      have := hoff (i + 1) k (by simpa using hk)
      omega
    have hndrest : ∀ i, (rest.getD i []).Nodup := fun i => by simpa using hnd (i + 1)
    rw [List.flatten_cons, List.nodup_append]
    refine ⟨by simpa using hnd 0, ih (off + 1) hrest hndrest, ?_⟩
    intro k hk hk'
    have h1 : f k = off := hb k hk
    have h2 : off + 1 ≤ f k := mem_flattenS_ge f rest (off + 1) hrest k hk'
    omega

/-- Internal consistency of a `HashSet` state, mirroring `HashMap.WF`. -/
structure HashSet.WF (s : HashSet) : Prop where
  storage_len : s.storage.length = s.capacity
  cap_pos : 0 < s.capacity
  lf_pos : 0 < s.loadFactor
  size_eq : s.size = (s.storage.map List.length).sum
  idx_consistent : ∀ i k, k ∈ s.storage.getD i [] → (HashSet.hash k).natAbs % s.capacity = i
  bucket_nodup : ∀ i, (s.storage.getD i []).Nodup

theorem HashSet.has_iff_mem_bucket (s : HashSet) (key : String) :
    s.has key = true ↔ key ∈ s.storage.getD ((HashSet.hash key).natAbs % s.capacity) [] :=
  contains_eq_true_iff _ key

theorem HashSet.WF.mem_keys_iff (s : HashSet) (h : s.WF) (key : String) :
    key ∈ s.keys ↔ s.has key = true := by
  rw [HashSet.keys, HashSet.has_iff_mem_bucket]
  have := mem_flattenS_iff (fun k => (HashSet.hash k).natAbs % s.capacity) s.storage 0 key
    (by simpa using h.idx_consistent)
  rw [this]
  simp

theorem HashSet.WF.keys_nodup (s : HashSet) (h : s.WF) : s.keys.Nodup :=
  nodup_flattenS (fun k => (HashSet.hash k).natAbs % s.capacity) s.storage 0
    (by simpa using h.idx_consistent) h.bucket_nodup

theorem HashSet.WF.keys_length (s : HashSet) (h : s.WF) : s.keys.length = s.size := by
  rw [HashSet.keys, List.length_flatten, h.size_eq]

theorem HashSet._addRaw_eq (s : HashSet) (key : String) :
    s._addRaw key =
      if (s.storage.getD ((HashSet.hash key).natAbs % s.capacity) []).contains key then (s, false)
      else
        ({ s with
            storage := s.storage.set ((HashSet.hash key).natAbs % s.capacity)
              ((s.storage.getD ((HashSet.hash key).natAbs % s.capacity) []) ++ [key]),
            size := s.size + 1 },
          true) := rfl

/-- Characterisation of the bucket update of `add` on a well-formed set. -/
theorem HashSet.addRaw_spec (s : HashSet) (key : String) (h : s.WF) :
    (s._addRaw key).1.WF ∧
    (s._addRaw key).1.loadFactor = s.loadFactor ∧
    (s._addRaw key).1.capacity = s.capacity ∧
    (s._addRaw key).1.size = (if s.has key = true then s.size else s.size + 1) ∧
    ((s._addRaw key).2 = !(s.has key)) ∧
    ∀ k', (s._addRaw key).1.has k' = (if k' = key then true else s.has k') := by
  have hjlen : (HashSet.hash key).natAbs % s.capacity < s.storage.length := by
    rw [h.storage_len]; exact Nat.mod_lt _ h.cap_pos
  rw [HashSet._addRaw_eq]
  by_cases hc : (s.storage.getD ((HashSet.hash key).natAbs % s.capacity) []).contains key = true
  · rw [if_pos hc]
    have hhas : s.has key = true := hc
    refine ⟨h, rfl, rfl, by rw [if_pos hhas], by rw [hhas]; rfl, ?_⟩
    intro k'
    by_cases hk' : k' = key
    · subst hk'
      rw [if_pos rfl, hhas]
    · rw [if_neg hk']
  · rw [if_neg hc]
    have hhas : s.has key = false := by
      cases hh : s.has key with
      | false => rfl
      | true => exact absurd hh hc
    have hfresh : key ∉ s.storage.getD ((HashSet.hash key).natAbs % s.capacity) [] := by
      intro hmem
      exact hc ((contains_eq_true_iff _ key).mpr hmem)
    refine ⟨?_, rfl, rfl, by rw [hhas]; rfl, by rw [hhas]; rfl, ?_⟩
    · refine ⟨by simpa using h.storage_len, h.cap_pos, h.lf_pos, ?_, ?_, ?_⟩
      · show s.size + 1
            = ((s.storage.set ((HashSet.hash key).natAbs % s.capacity)
                ((s.storage.getD ((HashSet.hash key).natAbs % s.capacity) [])
                  ++ [key])).map List.length).sum
        have hs := sum_length_set s.storage ((HashSet.hash key).natAbs % s.capacity)
          ((s.storage.getD ((HashSet.hash key).natAbs % s.capacity) []) ++ [key]) hjlen
        have hsz := h.size_eq
        rw [List.length_append] at hs
        simp only [List.length_cons, List.length_nil] at hs
        omega
      · intro i k hk
        show (HashSet.hash k).natAbs % s.capacity = i
        dsimp only at hk
        by_cases hij : i = (HashSet.hash key).natAbs % s.capacity
        · subst hij
          rw [getD_set_self _ _ _ _ hjlen] at hk
          rcases List.mem_append.mp hk with hk | hk
          · exact h.idx_consistent _ k hk
          · rcases List.mem_singleton.mp hk with rfl
            rfl
        · rw [getD_set_ne _ _ _ _ _ (fun hh => hij hh.symm)] at hk
          exact h.idx_consistent i k hk
      · intro i
        dsimp only
        by_cases hij : i = (HashSet.hash key).natAbs % s.capacity
        · subst hij
          rw [getD_set_self _ _ _ _ hjlen, List.nodup_append]
          refine ⟨h.bucket_nodup _, by simp, ?_⟩
          intro k hk hk'
          rcases List.mem_singleton.mp hk' with rfl
          exact hfresh hk
        · rw [getD_set_ne _ _ _ _ _ (fun hh => hij hh.symm)]
          exact h.bucket_nodup i
    · intro k'
      show List.contains _ k' = _
      simp only [HashSet.has, HashSet._getIndex] at hhas ⊢
      by_cases hk' : k' = key
      · subst hk'
        rw [if_pos rfl, getD_set_self _ _ _ _ hjlen]
        rw [show ∀ b : List String, b.contains k' = decide (k' ∈ b) from fun b => by simp]
        simp
      · rw [if_neg hk']
        by_cases hjj : (HashSet.hash k').natAbs % s.capacity
            = (HashSet.hash key).natAbs % s.capacity
        · rw [hjj, getD_set_self _ _ _ _ hjlen]
          rw [show ∀ b : List String, b.contains k' = decide (k' ∈ b) from fun b => by simp]
          rw [show ∀ b : List String, b.contains k' = decide (k' ∈ b) from fun b => by simp]
          simp [List.mem_append, hk']
        · rw [getD_set_ne _ _ _ _ _ (fun hh => hjj hh.symm)]

theorem HashSet.addF_zero (s : HashSet) (key : String) :
    HashSet.addF 0 s key = (s._addRaw key).1 := rfl

theorem HashSet.addF_succ (fuel : Nat) (s : HashSet) (key : String) :
    HashSet.addF (fuel + 1) s key =
      if (s._addRaw key).1._shouldResize then
        (s._addRaw key).1.keys.foldl (fun acc k => HashSet.addF fuel acc k)
          (s._addRaw key).1.emptyDouble
      else (s._addRaw key).1 := rfl

theorem HashSet.emptyDoubleS_wf (s : HashSet) (h1 : 0 < s.capacity) (h2 : 0 < s.loadFactor) :
    s.emptyDouble.WF := by
  refine ⟨?_, ?_, ?_, ?_, ?_, ?_⟩
  · simp [HashSet.emptyDouble]
  · simpa [HashSet.emptyDouble] using Nat.succ_le_of_lt h1
  · exact h2
  · simp [HashSet.emptyDouble, sum_length_replicate_nil]
  · intro i k hk
    rw [show s.emptyDouble.storage = List.replicate (s.capacity * 2) [] from rfl,
      getD_replicate_nil] at hk
    cases hk
  · intro i
    rw [show s.emptyDouble.storage = List.replicate (s.capacity * 2) [] from rfl,
      getD_replicate_nil]
    simp

theorem HashSet.emptyDouble_has (s : HashSet) (k : String) :
    s.emptyDouble.has k = false := by
  rw [HashSet.has, show s.emptyDouble.storage = List.replicate (s.capacity * 2) [] from rfl,
    getD_replicate_nil]
  rfl

/-- Re-inserting a duplicate-free list of fresh keys through `addF`. -/
theorem HashSet.reinsertS_spec (fuel : Nat)
    (ihadd : ∀ (s : HashSet) (key : String), s.WF →
      (HashSet.addF fuel s key).WF ∧
      (HashSet.addF fuel s key).loadFactor = s.loadFactor ∧
      s.capacity ≤ (HashSet.addF fuel s key).capacity ∧
      (HashSet.addF fuel s key).size = (if s.has key = true then s.size else s.size + 1) ∧
      ∀ k', (HashSet.addF fuel s key).has k' = (if k' = key then true else s.has k')) :
    ∀ (pending : List String) (acc : HashSet), acc.WF →
      pending.Nodup →
      (∀ k ∈ pending, acc.has k = false) →
      (pending.foldl (fun acc k => HashSet.addF fuel acc k) acc).WF ∧
      (pending.foldl (fun acc k => HashSet.addF fuel acc k) acc).loadFactor = acc.loadFactor ∧
      acc.capacity ≤ (pending.foldl (fun acc k => HashSet.addF fuel acc k) acc).capacity ∧
      (pending.foldl (fun acc k => HashSet.addF fuel acc k) acc).size
        = acc.size + pending.length ∧
      ∀ k', (pending.foldl (fun acc k => HashSet.addF fuel acc k) acc).has k'
        = (if k' ∈ pending then true else acc.has k') := by
  intro pending
  induction pending with
  | nil =>
    intro acc hacc _ _
    refine ⟨hacc, rfl, le_refl _, by simp, ?_⟩
    intro k'
    rw [if_neg (List.not_mem_nil k')]
    rfl
  | cons e rest ih =>
    intro acc hacc hnd hfresh
    have hfresh0 : acc.has e = false := hfresh e (List.mem_cons_self e rest)
    obtain ⟨hWF', hlf', hcap', hsize', hhas'⟩ := ihadd acc e hacc
    rw [List.nodup_cons] at hnd
    have hfreshrest : ∀ k ∈ rest, (HashSet.addF fuel acc e).has k = false := by
      intro k hk
      rw [hhas' k, if_neg (fun hh => hnd.1 (by rw [← hh]; exact hk)),
        hfresh k (List.mem_cons_of_mem e hk)]
    obtain ⟨g1, g2, g3, g4, g5⟩ := ih (HashSet.addF fuel acc e) hWF' hnd.2 hfreshrest
    rw [List.foldl_cons]
    refine ⟨g1, by rw [g2, hlf'], le_trans hcap' g3, ?_, ?_⟩
    · rw [g4, hsize', hfresh0]
      simp [Nat.add_assoc, Nat.add_comm 1 rest.length]
    · intro k'
      rw [g5 k']
      by_cases hk'r : k' ∈ rest
      · rw [if_pos hk'r, if_pos (List.mem_cons_of_mem e hk'r)]
      · rw [if_neg hk'r, hhas' k']
        by_cases hk'e : k' = e
        · subst hk'e
          rw [if_pos rfl, if_pos (List.mem_cons_self k' rest)]
        · rw [if_neg hk'e, if_neg (by
            intro hh
            rcases List.mem_cons.mp hh with hh | hh
            · exact hk'e hh
            · exact hk'r hh)]

/-- The `addF` specification, by induction on the fuel. -/
theorem HashSet.addF_spec :
    ∀ (fuel : Nat) (s : HashSet) (key : String), s.WF →
      (HashSet.addF fuel s key).WF ∧
      (HashSet.addF fuel s key).loadFactor = s.loadFactor ∧
      s.capacity ≤ (HashSet.addF fuel s key).capacity ∧
      (HashSet.addF fuel s key).size = (if s.has key = true then s.size else s.size + 1) ∧
      ∀ k', (HashSet.addF fuel s key).has k' = (if k' = key then true else s.has k') := by
  intro fuel
  induction fuel with
  | zero =>
    intro s key h
    obtain ⟨h1, h2, h3, h4, _, h6⟩ := HashSet.addRaw_spec s key h
    exact ⟨h1, h2, le_of_eq h3.symm, h4, h6⟩
  | succ fuel ih =>
    intro s key h
    obtain ⟨h1, h2, h3, h4, _, h6⟩ := HashSet.addRaw_spec s key h
    rw [HashSet.addF_succ]
    by_cases hcond : (s._addRaw key).1._shouldResize = true
    · rw [if_pos hcond]
      have hnd : (s._addRaw key).1.keys.Nodup := HashSet.WF.keys_nodup _ h1
      have hfresh : ∀ k ∈ (s._addRaw key).1.keys, (s._addRaw key).1.emptyDouble.has k = false :=
        fun k _ => HashSet.emptyDouble_has _ k
      have hed : (s._addRaw key).1.emptyDouble.WF :=
        HashSet.emptyDoubleS_wf _ h1.cap_pos h1.lf_pos
      obtain ⟨g1, g2, g3, g4, g5⟩ :=
        HashSet.reinsertS_spec fuel ih (s._addRaw key).1.keys
          (s._addRaw key).1.emptyDouble hed hnd hfresh
      refine ⟨g1, ?_, ?_, ?_, ?_⟩
      · rw [g2]
        exact h2
      · refine le_trans ?_ g3
        rw [show (s._addRaw key).1.emptyDouble.capacity
            = (s._addRaw key).1.capacity * 2 from rfl, h3]
        omega
      · rw [g4, show (s._addRaw key).1.emptyDouble.size = 0 from rfl,
          HashSet.WF.keys_length _ h1, h4]
        omega
      · intro k'
        rw [g5 k']
        cases hmem : (s._addRaw key).1.has k' with
        | true =>
          rw [if_pos ((HashSet.WF.mem_keys_iff _ h1 k').mpr hmem), ← h6 k', hmem]
        | false =>
          rw [if_neg (fun hh => by
              rw [(HashSet.WF.mem_keys_iff _ h1 k').mp hh] at hmem
              cases hmem),
            HashSet.emptyDouble_has, ← h6 k', hmem]
    · rw [if_neg hcond]
      exact ⟨h1, h2, le_of_eq h3.symm, h4, h6⟩

/-- The load-factor invariant for the set. -/
def HashSet.Bal (s : HashSet) : Prop :=
  (s.size : ℚ) ≤ s.loadFactor * (s.capacity : ℚ)

theorem HashSet.bal_iff_int (s : HashSet) :
    s.Bal ↔ (s.size : ℤ) * (s.loadFactor.den : ℤ) ≤ s.loadFactor.num * (s.capacity : ℤ) := by
  have hden : (0:ℚ) < (s.loadFactor.den : ℚ) := by
    have := s.loadFactor.den_pos
    positivity
  rw [HashSet.Bal, ← mul_le_mul_right hden, mul_right_comm, rat_mul_den]
  constructor <;> intro hh <;> exact_mod_cast hh

theorem HashSet.shouldResize_false_iff (s : HashSet) :
    s._shouldResize = false ↔ s.Bal := by
  rw [HashSet.bal_iff_int, HashSet._shouldResize, decide_eq_false_iff_not, not_lt]

theorem HashSet.shouldResize_div_iff (s : HashSet) (h : 0 < s.capacity) :
    s._shouldResize = true ↔ (s.size : ℚ) / (s.capacity : ℚ) > s.loadFactor := by
  have hcap : (0:ℚ) < (s.capacity : ℚ) := by exact_mod_cast h
  have hden : (0:ℚ) < (s.loadFactor.den : ℚ) := by
    have := s.loadFactor.den_pos
    positivity
  rw [HashSet._shouldResize, decide_eq_true_eq, gt_iff_lt, gt_iff_lt, lt_div_iff₀ hcap]
  rw [show s.loadFactor * (s.capacity : ℚ)
      = (s.loadFactor * (s.loadFactor.den : ℚ)) * (s.capacity : ℚ) / (s.loadFactor.den : ℚ)
    from by
      field_simp
      rw [← rat_mul_den s.loadFactor]
      ring]
  rw [rat_mul_den, div_lt_iff₀ hden]
  constructor <;> intro hh <;> exact_mod_cast hh

/-- Generic fuel-sufficiency bound shared by both containers. -/
theorem fuel_sufficient (size cap : Nat) (lf : ℚ) (hcap : 0 < cap) (hlf : 0 < lf) :
    ((size : ℚ) + 1) ≤ lf * (cap : ℚ) * 2 ^ ((size + 1) * lf.den + 1) :=
  HashMap.set_fuel_sufficient ⟨[], size, cap, lf⟩ hcap hlf

/-- Re-inserting the rehashed keys keeps the set's load-factor invariant. -/
theorem HashSet.reinsertS_bal (fuel : Nat)
    (ihbal : ∀ (s : HashSet) (key : String), s.WF → s.Bal →
      ((s.size : ℚ) + 1) ≤ s.loadFactor * (s.capacity : ℚ) * 2 ^ fuel →
      (HashSet.addF fuel s key).Bal) :
    ∀ (pending : List String) (acc : HashSet), acc.WF →
      pending.Nodup →
      (∀ k ∈ pending, acc.has k = false) →
      acc.Bal →
      ((acc.size : ℚ) + pending.length) ≤ acc.loadFactor * (acc.capacity : ℚ) * 2 ^ fuel →
      (pending.foldl (fun acc k => HashSet.addF fuel acc k) acc).Bal := by
  intro pending
  induction pending with
  | nil =>
    intro acc _ _ _ hbal _
    exact hbal
  | cons e rest ih =>
    intro acc hacc hnd hfresh hbal hbound
    simp only [List.length_cons] at hbound
    have hfresh0 : acc.has e = false := hfresh e (List.mem_cons_self e rest)
    obtain ⟨hWF', hlf', hcap', hsize', hhas'⟩ := HashSet.addF_spec fuel acc e hacc
    rw [List.nodup_cons] at hnd
    have hfreshrest : ∀ k ∈ rest, (HashSet.addF fuel acc e).has k = false := by
      intro k hk
      rw [hhas' k, if_neg (fun hh => hnd.1 (by rw [← hh]; exact hk)),
        hfresh k (List.mem_cons_of_mem e hk)]
    have hsize1 : (HashSet.addF fuel acc e).size = acc.size + 1 := by
      rw [hsize', hfresh0]
      simp
    have hstep : ((acc.size : ℚ) + 1) ≤ acc.loadFactor * (acc.capacity : ℚ) * 2 ^ fuel := by
      refine le_trans ?_ hbound
      have : (0:ℚ) ≤ (rest.length : ℚ) := by positivity
      push_cast
      linarith
    have hbal' : (HashSet.addF fuel acc e).Bal := ihbal acc e hacc hbal hstep
    rw [List.foldl_cons]
    refine ih (HashSet.addF fuel acc e) hWF' hnd.2 hfreshrest hbal' ?_
    rw [hsize1, hlf']
    have hmono : acc.loadFactor * (acc.capacity : ℚ) * 2 ^ fuel
        ≤ acc.loadFactor * ((HashSet.addF fuel acc e).capacity : ℚ) * 2 ^ fuel := by
      have h2 : (0:ℚ) ≤ (2:ℚ) ^ fuel := by positivity
      have hc : ((acc.capacity : ℚ)) ≤ ((HashSet.addF fuel acc e).capacity : ℚ) := by
        exact_mod_cast hcap'
      have hlf0 : (0:ℚ) ≤ acc.loadFactor := le_of_lt hacc.lf_pos
      exact mul_le_mul_of_nonneg_right (mul_le_mul_of_nonneg_left hc hlf0) h2
    refine le_trans ?_ (le_trans hbound hmono)
    push_cast
    linarith

/-- `addF` restores the set's load-factor invariant, given enough fuel. -/
theorem HashSet.addF_bal :
    ∀ (fuel : Nat) (s : HashSet) (key : String), s.WF → s.Bal →
      ((s.size : ℚ) + 1) ≤ s.loadFactor * (s.capacity : ℚ) * 2 ^ fuel →
      (HashSet.addF fuel s key).Bal := by
  intro fuel
  induction fuel with
  | zero =>
    intro s key h hbal hbound
    obtain ⟨h1, h2, h3, h4, _, _⟩ := HashSet.addRaw_spec s key h
    rw [HashSet.addF_zero, HashSet.Bal, h2, h3, h4]
    rw [pow_zero, mul_one] at hbound
    cases hl : s.has key with
    | false =>
      rw [if_neg Bool.false_ne_true]
      push_cast
      exact hbound
    | true =>
      rw [if_pos rfl]
      exact hbal
  | succ fuel ih =>
    intro s key h hbal hbound
    obtain ⟨h1, h2, h3, h4, _, _⟩ := HashSet.addRaw_spec s key h
    rw [HashSet.addF_succ]
    by_cases hcond : (s._addRaw key).1._shouldResize = true
    · rw [if_pos hcond]
      have hszle : (s._addRaw key).1.size ≤ s.size + 1 := by
        rw [h4]
        by_cases hh : s.has key = true
        · rw [if_pos hh]; omega
        · rw [if_neg hh]
      have hnd : (s._addRaw key).1.keys.Nodup := HashSet.WF.keys_nodup _ h1
      have hfresh : ∀ k ∈ (s._addRaw key).1.keys, (s._addRaw key).1.emptyDouble.has k = false :=
        fun k _ => HashSet.emptyDouble_has _ k
      have hed : (s._addRaw key).1.emptyDouble.WF :=
        HashSet.emptyDoubleS_wf _ h1.cap_pos h1.lf_pos
      refine HashSet.reinsertS_bal fuel ih (s._addRaw key).1.keys
        (s._addRaw key).1.emptyDouble hed hnd hfresh ?_ ?_
      · rw [HashSet.Bal]
        have hlf0 : (0:ℚ) ≤ s.loadFactor := le_of_lt h.lf_pos
        rw [show (s._addRaw key).1.emptyDouble.size = 0 from rfl,
          show (s._addRaw key).1.emptyDouble.loadFactor = s.loadFactor from by
            rw [show (s._addRaw key).1.emptyDouble.loadFactor
                = (s._addRaw key).1.loadFactor from rfl, h2]]
        push_cast
        positivity
      · rw [HashSet.WF.keys_length _ h1,
          show (s._addRaw key).1.emptyDouble.size = 0 from rfl,
          show (s._addRaw key).1.emptyDouble.loadFactor = s.loadFactor from by
            rw [show (s._addRaw key).1.emptyDouble.loadFactor
                = (s._addRaw key).1.loadFactor from rfl, h2],
          show (s._addRaw key).1.emptyDouble.capacity
              = (s._addRaw key).1.capacity * 2 from rfl, h3]
        rw [show s.loadFactor * ((s.capacity * 2 : ℕ) : ℚ) * 2 ^ fuel
            = s.loadFactor * (s.capacity : ℚ) * 2 ^ (fuel + 1) from by
          push_cast
          ring]
        refine le_trans ?_ hbound
        have hcast : (((s._addRaw key).1.size : ℕ) : ℚ) ≤ ((s.size + 1 : ℕ) : ℚ) := by
          exact_mod_cast hszle
        push_cast at hcast ⊢
        linarith
    · rw [if_neg (by
        intro hh
        exact hcond hh)]
      have hsr : (s._addRaw key).1._shouldResize = false := by
        cases hsr : (s._addRaw key).1._shouldResize with
        | false => rfl
        | true => exact absurd hsr hcond
      exact (HashSet.shouldResize_false_iff _).mp hsr

/-- `add` preserves the load-factor invariant on well-formed states. -/
theorem HashSet.add_bal (s : HashSet) (key : String) (h : s.WF) (hbal : s.Bal) :
    (s.add key).Bal :=
  HashSet.addF_bal _ s key h hbal
    (fuel_sufficient s.size s.capacity s.loadFactor h.cap_pos h.lf_pos)

theorem HashSet.addRaw_capacity (s : HashSet) (key : String) :
    (s._addRaw key).1.capacity = s.capacity := by
  rw [HashSet._addRaw_eq]
  by_cases hc : (s.storage.getD ((HashSet.hash key).natAbs % s.capacity) []).contains key = true
  · rw [if_pos hc]
  · rw [if_neg hc]

theorem HashSet.addF_capacity_mono :
    ∀ (fuel : Nat) (s : HashSet) (key : String),
      s.capacity ≤ (HashSet.addF fuel s key).capacity := by
  intro fuel
  induction fuel with
  | zero =>
    intro s key
    rw [HashSet.addF_zero, HashSet.addRaw_capacity]
  | succ fuel ih =>
    intro s key
    rw [HashSet.addF_succ]
    by_cases hcond : (s._addRaw key).1._shouldResize = true
    · rw [if_pos hcond]
      have hfold : ∀ (pending : List String) (acc : HashSet),
          acc.capacity ≤ (pending.foldl (fun acc k => HashSet.addF fuel acc k) acc).capacity := by
        intro pending
        induction pending with
        | nil => intro acc; exact le_refl _
        | cons e rest ihp =>
          intro acc
          rw [List.foldl_cons]
          exact le_trans (ih acc e) (ihp (HashSet.addF fuel acc e))
      refine le_trans ?_ (hfold (s._addRaw key).1.keys (s._addRaw key).1.emptyDouble)
      rw [show (s._addRaw key).1.emptyDouble.capacity
          = (s._addRaw key).1.capacity * 2 from rfl, HashSet.addRaw_capacity]
      omega
    · rw [if_neg hcond, HashSet.addRaw_capacity]

theorem HashSet.add_capacity_mono (s : HashSet) (key : String) :
    s.capacity ≤ (s.add key).capacity :=
  HashSet.addF_capacity_mono _ s key

theorem HashSet.removeS_eq (s : HashSet) (key : String) :
    s.remove key =
      if (s.storage.getD ((HashSet.hash key).natAbs % s.capacity) []).contains key then
        ({ s with
            storage := s.storage.set ((HashSet.hash key).natAbs % s.capacity)
              ((s.storage.getD ((HashSet.hash key).natAbs % s.capacity) []).erase key),
            size := s.size - 1 },
          true)
      else (s, false) := rfl

/-- Full characterisation of the set's `remove` on a well-formed state. -/
theorem HashSet.removeS_spec (s : HashSet) (key : String) (h : s.WF) :
    (s.remove key).1.WF ∧
    (s.remove key).1.loadFactor = s.loadFactor ∧
    (s.remove key).1.capacity = s.capacity ∧
    ((s.remove key).2 = s.has key) ∧
    ((s.remove key).2 = true → (s.remove key).1.size + 1 = s.size) ∧
    ((s.remove key).2 = false → (s.remove key).1 = s) ∧
    ∀ k', (s.remove key).1.has k' = (if k' = key then false else s.has k') := by
  have hjlen : (HashSet.hash key).natAbs % s.capacity < s.storage.length := by
    rw [h.storage_len]; exact Nat.mod_lt _ h.cap_pos
  rw [HashSet.removeS_eq]
  by_cases hc : (s.storage.getD ((HashSet.hash key).natAbs % s.capacity) []).contains key = true
  · rw [if_pos hc]
    have hmem : key ∈ s.storage.getD ((HashSet.hash key).natAbs % s.capacity) [] :=
      (contains_eq_true_iff _ key).mp hc
    have hnd := h.bucket_nodup ((HashSet.hash key).natAbs % s.capacity)
    have hlenerase : ((s.storage.getD ((HashSet.hash key).natAbs % s.capacity) []).erase key).length
        + 1 = (s.storage.getD ((HashSet.hash key).natAbs % s.capacity) []).length := by
      rw [List.length_erase_of_mem hmem]
      have : 1 ≤ (s.storage.getD ((HashSet.hash key).natAbs % s.capacity) []).length :=
        List.length_pos_of_mem hmem
      omega
    have hsizege : 1 ≤ s.size := by
      rw [h.size_eq]
      calc 1 ≤ (s.storage.getD ((HashSet.hash key).natAbs % s.capacity) []).length :=
        List.length_pos_of_mem hmem
      _ ≤ (s.storage.map List.length).sum := getD_length_le_sum _ _
    refine ⟨?_, rfl, rfl, by show true = s.has key; exact hc.symm, ?_, ?_, ?_⟩
    · refine ⟨by simpa using h.storage_len, h.cap_pos, h.lf_pos, ?_, ?_, ?_⟩
      · show s.size - 1
            = ((s.storage.set ((HashSet.hash key).natAbs % s.capacity)
                ((s.storage.getD ((HashSet.hash key).natAbs % s.capacity) []).erase key)).map
                  List.length).sum
        have hs := sum_length_set s.storage ((HashSet.hash key).natAbs % s.capacity)
          ((s.storage.getD ((HashSet.hash key).natAbs % s.capacity) []).erase key) hjlen
        have hsz := h.size_eq
        omega
      · intro i k hk
        show (HashSet.hash k).natAbs % s.capacity = i
        dsimp only at hk
        by_cases hij : i = (HashSet.hash key).natAbs % s.capacity
        · subst hij
          rw [getD_set_self _ _ _ _ hjlen] at hk
          exact h.idx_consistent _ k ((List.erase_sublist key _).subset hk)
        · rw [getD_set_ne _ _ _ _ _ (fun hh => hij hh.symm)] at hk
          exact h.idx_consistent i k hk
      · intro i
        dsimp only
        by_cases hij : i = (HashSet.hash key).natAbs % s.capacity
        · subst hij
          rw [getD_set_self _ _ _ _ hjlen]
          exact List.Nodup.sublist (List.erase_sublist key _) hnd
        · rw [getD_set_ne _ _ _ _ _ (fun hh => hij hh.symm)]
          exact h.bucket_nodup i
    · intro _
      show s.size - 1 + 1 = s.size
      omega
    · intro hh
      cases hh
    · intro k'
      show List.contains _ k' = _
      simp only [HashSet.has, HashSet._getIndex] at *
      by_cases hk' : k' = key
      · subst hk'
        rw [if_pos rfl, getD_set_self _ _ _ _ hjlen]
        cases hcc : ((s.storage.getD ((HashSet.hash k').natAbs % s.capacity) []).erase k').contains k' with
        | false => rfl
        | true =>
          exact absurd ((contains_eq_true_iff _ k').mp hcc) (List.Nodup.not_mem_erase hnd)
      · rw [if_neg hk']
        by_cases hjj : (HashSet.hash k').natAbs % s.capacity
            = (HashSet.hash key).natAbs % s.capacity
        · rw [hjj, getD_set_self _ _ _ _ hjlen]
          cases hcc : (s.storage.getD ((HashSet.hash key).natAbs % s.capacity) []).contains k' with
          | true =>
            rw [(contains_eq_true_iff _ k').2 (((List.mem_erase_of_ne hk').mpr
              ((contains_eq_true_iff _ k').mp hcc)))]
          | false =>
            cases hcc' : ((s.storage.getD ((HashSet.hash key).natAbs % s.capacity) []).erase
                key).contains k' with
            | false => rfl
            | true =>
              have : k' ∈ s.storage.getD ((HashSet.hash key).natAbs % s.capacity) [] :=
                (List.erase_sublist key _).subset ((contains_eq_true_iff _ k').mp hcc')
              rw [(contains_eq_true_iff _ k').2 this] at hcc
              cases hcc
        · rw [getD_set_ne _ _ _ _ _ (fun hh => hjj hh.symm)]
  · rw [if_neg hc]
    have hhas : s.has key = false := by
      cases hh : s.has key with
      | false => rfl
      | true => exact absurd hh hc
    refine ⟨h, rfl, rfl, by rw [hhas], ?_, fun _ => rfl, ?_⟩
    · intro hh
      cases hh
    · intro k'
      by_cases hk' : k' = key
      · subst hk'
        rw [if_pos rfl, hhas]
      · rw [if_neg hk']

theorem HashSet.createS_wf (initialCapacity : Nat) (loadFactor : ℚ)
    (hc : 0 < initialCapacity) (hl : 0 < loadFactor) :
    (HashSet.create initialCapacity loadFactor).WF := by
  refine ⟨by simp [HashSet.create], hc, hl, ?_, ?_, ?_⟩
  · simp [HashSet.create, sum_length_replicate_nil]
  · intro i k hk
    rw [show (HashSet.create initialCapacity loadFactor).storage
        = List.replicate initialCapacity [] from rfl, getD_replicate_nil] at hk
    cases hk
  · intro i
    rw [show (HashSet.create initialCapacity loadFactor).storage
        = List.replicate initialCapacity [] from rfl, getD_replicate_nil]
    simp

theorem HashSet.createS_bal (initialCapacity : Nat) (loadFactor : ℚ) (hl : 0 < loadFactor) :
    (HashSet.create initialCapacity loadFactor).Bal := by
  rw [HashSet.Bal]
  show ((0 : Nat) : ℚ) ≤ loadFactor * (initialCapacity : ℚ)
  positivity

theorem HashSet.clearS_wf (s : HashSet) (h : s.WF) : s.clear.WF := by
  refine ⟨by simp [HashSet.clear, h.storage_len.symm], h.cap_pos, h.lf_pos, ?_, ?_, ?_⟩
  · simp [HashSet.clear, sum_length_replicate_nil]
  · intro i k hk
    rw [show s.clear.storage = List.replicate s.capacity [] from rfl, getD_replicate_nil] at hk
    cases hk
  · intro i
    rw [show s.clear.storage = List.replicate s.capacity [] from rfl, getD_replicate_nil]
    simp

theorem HashSet.clearS_bal (s : HashSet) (h : s.WF) : s.clear.Bal := by
  rw [HashSet.Bal]
  show ((0 : Nat) : ℚ) ≤ s.loadFactor * (s.capacity : ℚ)
  have := h.lf_pos
  positivity

theorem HashSet.removeS_bal (s : HashSet) (key : String) (h : s.WF) (hbal : s.Bal) :
    (s.remove key).1.Bal := by
  obtain ⟨_, h2, h3, _, _, _, _⟩ := HashSet.removeS_spec s key h
  rw [HashSet.Bal, h2, h3]
  have hle : (s.remove key).1.size ≤ s.size := by
    rw [HashSet.removeS_eq]
    by_cases hc : (s.storage.getD ((HashSet.hash key).natAbs % s.capacity) []).contains key = true
    · rw [if_pos hc]
      exact Nat.sub_le _ _
    · rw [if_neg hc]
  refine le_trans ?_ hbal
  exact_mod_cast hle

/-- Reachable `HashSet` states. -/
inductive HashSet.Reachable : HashSet → Prop where
  | init (initialCapacity : Nat) (loadFactor : ℚ) :
      0 < initialCapacity → 0 < loadFactor → loadFactor ≤ 1 →
      HashSet.Reachable (HashSet.create initialCapacity loadFactor)
  | add (s : HashSet) (key : String) :
      HashSet.Reachable s → HashSet.Reachable (s.add key)
  | remove (s : HashSet) (key : String) :
      HashSet.Reachable s → HashSet.Reachable (s.remove key).1
  | clear (s : HashSet) : HashSet.Reachable s → HashSet.Reachable s.clear

/-- Every reachable set state is well-formed and balanced. -/
theorem HashSet.reachableS_wf_bal (s : HashSet) (h : s.Reachable) : s.WF ∧ s.Bal := by
  induction h with
  | init cap lf hc hl _ => exact ⟨HashSet.createS_wf cap lf hc hl, HashSet.createS_bal cap lf hl⟩
  | add s key _ ih =>
    exact ⟨(HashSet.addF_spec _ s key ih.1).1, HashSet.add_bal s key ih.1 ih.2⟩
  | remove s key _ ih =>
    exact ⟨(HashSet.removeS_spec s key ih.1).1, HashSet.removeS_bal s key ih.1 ih.2⟩
  | clear s _ ih => exact ⟨HashSet.clearS_wf s ih.1, HashSet.clearS_bal s ih.1⟩

theorem HashMap.keys_eq_entries_map (m : HashMap) :
    m.keys = m.entries.map Prod.fst := by
  rw [HashMap.keys, HashMap.entries, List.map_flatten]

theorem HashMap.values_eq_entries_map (m : HashMap) :
    m.values = m.entries.map Prod.snd := by
  rw [HashMap.values, HashMap.entries, List.map_flatten]

theorem HashMap.remove_capacity (m : HashMap) (key : String) :
    (m.remove key).1.capacity = m.capacity := by
  rw [HashMap.remove_eq]
  cases removeChain (m.storage.getD ((HashMap.hash key).natAbs % m.capacity) []) key <;> rfl

theorem HashSet.removeS_capacity (s : HashSet) (key : String) :
    (s.remove key).1.capacity = s.capacity := by
  rw [HashSet.removeS_eq]
  by_cases hc : (s.storage.getD ((HashSet.hash key).natAbs % s.capacity) []).contains key = true
  · rw [if_pos hc]
  · rw [if_neg hc]

/-- The in-place update path of `set`: when the key is already present in its
bucket, `set` overwrites the value, returns before the resize check, and
leaves `size`, `capacity`, and every other bucket untouched.  No
well-formedness assumption is needed. -/
theorem HashMap.set_update_of_has (m : HashMap) (key : String) (value : JsVal)
    (hhas : m.has key = true) :
    (m.set key value).capacity = m.capacity ∧
    (m.set key value).size = m.size ∧
    (m.set key value).get key = value := by
  have hlookup : (m.lookup key).isSome = true := by
    rw [← HashMap.has_eq_lookup]
    exact hhas
  have hjlen : (HashMap.hash key).natAbs % m.capacity < m.storage.length := by
    by_contra hge
    push_neg at hge
    have hempty : m.storage.getD ((HashMap.hash key).natAbs % m.capacity) [] = [] :=
      getD_ge_length _ _ _ hge
    have : m.has key = false := by
      rw [HashMap.has, HashMap._getIndex, hempty]
      rfl
    rw [this] at hhas
    cases hhas
  have hset : ∃ b', setChain (m.storage.getD ((HashMap.hash key).natAbs % m.capacity) [])
      key value = some b' := by
    cases hsc : setChain (m.storage.getD ((HashMap.hash key).natAbs % m.capacity) [])
        key value with
    | none =>
      rw [setChain_eq_none_iff] at hsc
      have : m.lookup key = none := hsc
      rw [this] at hlookup
      cases hlookup
    | some b' => exact ⟨b', rfl⟩
  obtain ⟨b', hsc⟩ := hset
  obtain ⟨hkeys, hblen, hself, hother⟩ := setChain_some_spec _ b' key value hsc
  have hraw : m._setRaw key value
      = ({ m with storage := m.storage.set ((HashMap.hash key).natAbs % m.capacity) b' },
          false) := by
    rw [HashMap._setRaw_eq, hsc]
  rw [HashMap.set, HashMap.setF_succ, hraw]
  simp only [Bool.false_and, if_neg Bool.false_ne_true]
  refine ⟨trivial, trivial, ?_⟩
  show getChain _ key = value
  simp only [HashMap._getIndex]
  rw [getD_set_self _ _ _ _ hjlen, getChain_eq_lookup, hself]
  rfl

/-- On any state, a key reported absent by `has` makes `get` return the
`null` sentinel (which is itself a storable value). -/
theorem HashMap.get_eq_null_of_not_has (m : HashMap) (key : String)
    (h : m.has key = false) : m.get key = JsVal.null := by
  rw [HashMap.get_eq_lookup]
  have hh := HashMap.has_eq_lookup m key
  rw [h] at hh
  cases hl : m.lookup key with
  | none => rfl
  | some v =>
    rw [hl] at hh
    cases hh

/-- Fold state reachability for sequences of `set` operations. -/
theorem HashMap.reachable_foldl_set (m : HashMap) (h : m.Reachable)
    (ops : List (String × JsVal)) :
    (ops.foldl (fun t e => t.set e.1 e.2) m).Reachable := by
  induction ops generalizing m with
  | nil => exact h
  | cons e rest ih =>
    rw [List.foldl_cons]
    exact ih (m.set e.1 e.2) (HashMap.Reachable.set m e.1 e.2 h)

/-- Fold state reachability for sequences of `add` operations. -/
theorem HashSet.reachable_foldl_add (s : HashSet) (h : s.Reachable)
    (ops : List String) :
    (ops.foldl (fun t k => t.add k) s).Reachable := by
  induction ops generalizing s with
  | nil => exact h
  | cons k rest ih =>
    rw [List.foldl_cons]
    exact ih (s.add k) (HashSet.Reachable.add s k h)

theorem HashMap.foldl_set_loadFactor (m : HashMap) (h : m.Reachable)
    (ops : List (String × JsVal)) :
    (ops.foldl (fun t e => t.set e.1 e.2) m).loadFactor = m.loadFactor := by
  induction ops generalizing m with
  | nil => rfl
  | cons e rest ih =>
    rw [List.foldl_cons, ih (m.set e.1 e.2) (HashMap.Reachable.set m e.1 e.2 h)]
    exact (HashMap.setF_spec _ m e.1 e.2 (HashMap.reachable_wf_bal m h).1).2.1

theorem HashSet.foldl_add_loadFactor (s : HashSet) (h : s.Reachable)
    (ops : List String) :
    (ops.foldl (fun t k => t.add k) s).loadFactor = s.loadFactor := by
  induction ops generalizing s with
  | nil => rfl
  | cons k rest ih =>
    rw [List.foldl_cons, ih (s.add k) (HashSet.Reachable.add s k h)]
    exact (HashSet.addF_spec _ s k (HashSet.reachableS_wf_bal s h).1).2.1

/-! ### Bit-exact IEEE-754 model of the source's hash

The JavaScript engine computes `hashCode = primeNumber * hashCode +
key.charCodeAt(i)` over binary64 doubles and UTF-16 code units.  On this
computation path every intermediate double is a nonnegative integer (an
integer below `2^53` is exact, and rounding an integer to binary64 yields an
integer again), so a double is modelled as `Option Nat`: `some n` is the
finite double of exact value `n`, and `none` is `Infinity`.  `roundFloat`
is IEEE-754 round-to-nearest, ties-to-even, with overflow to `Infinity`.
This model diverges from the exact-integer idealization `HashMap.hash`
exactly where the source does: rounding once the running value exceeds
`2^53` (about 12 code units), and saturation to `Infinity` (bucket index
`NaN`) for keys of roughly 208+ code units. -/

/-- Number of binary digits of `n`, one bit per step (fuel-bounded). -/
def bitLenSmall : Nat → Nat → Nat
  | 0, _ => 0
  | fuel + 1, n => if n = 0 then 0 else bitLenSmall fuel (n / 2) + 1

/-- Number of binary digits of `n`, 32 bits per step; correct for every
`n < 2 ^ 1312`, far above the largest pre-rounding value reachable here
(`31 * (2^1024) + 2^16`). -/
def bitLenAux : Nat → Nat → Nat
  | 0, _ => 0
  | fuel + 1, n => if n < 4294967296 then bitLenSmall 32 n else bitLenAux fuel (n / 4294967296) + 32

def bitLen (n : Nat) : Nat :=
  bitLenAux 40 n

/-- `pow2Aux fuel k` is `2 ^ k` by repeated squaring (well beyond the
exponents used here once `fuel` covers `log2 k`). -/
def pow2Aux : Nat → Nat → Nat
  | 0, _ => 1
  | fuel + 1, k =>
    if k = 0 then 1
    else
      let sq := pow2Aux fuel (k / 2)
      if k % 2 = 0 then sq * sq else 2 * (sq * sq)

/-- `2 ^ k` in logarithmic depth, correct for every `k < 2 ^ 11`. -/
def pow2 (k : Nat) : Nat :=
  pow2Aux 11 k

theorem pow2_53 : pow2 53 = 2 ^ 53 := by decide

theorem pow2_1024_pos : 0 < pow2 1024 := by decide

/-- Round a nonnegative integer to the nearest binary64 value
(round-to-nearest, ties-to-even): keep the top 53 bits, round the rest,
overflow to `Infinity` (`none`) at `2 ^ 1024`. -/
def roundFloat (n : Nat) : Option Nat :=
  if n < 9007199254740992 then some n
  else
    let sh := bitLen n - 53
    let p := pow2 sh
    let q := n / p
    let r := n % p
    let half := p / 2
    let q' := if half < r ∨ (r = half ∧ q % 2 = 1) then q + 1 else q
    if pow2 1024 ≤ q' * p then none else some (q' * p)

/-- Sanity: an exact tie rounds to the even neighbour. -/
theorem roundFloat_tie_to_even : roundFloat (2 ^ 53 + 1) = some (2 ^ 53) := by decide

/-- Sanity: above a tie the value rounds up. -/
theorem roundFloat_above_tie : roundFloat (2 ^ 53 + 3) = some (2 ^ 53 + 4) := by decide

/-- One iteration of the source's hash loop over doubles:
`31 * hashCode` rounds once, adding the code unit rounds again;
`Infinity` is absorbing. -/
def jsHashStep (h : Option Nat) (c : Nat) : Option Nat :=
  match h with
  | none => none
  | some n =>
    match roundFloat (31 * n) with
    | none => none
    | some m => roundFloat (m + c)

/-- The UTF-16 code units of a character, as `charCodeAt` enumerates them
(one unit for the basic plane, a surrogate pair beyond). -/
def utf16Units (c : Char) : List Nat :=
  if c.toNat < 65536 then [c.toNat]
  else [55296 + (c.toNat - 65536) / 1024, 56320 + (c.toNat - 65536) % 1024]

/-- The UTF-16 code-unit sequence of a string. -/
def utf16Data (key : String) : List Nat :=
  (key.data.map utf16Units).flatten

/-- The source's hash as the engine actually computes it: the double fold
of `31 * h + charCodeAt(i)` over the UTF-16 code units. -/
def hashF (key : String) : Option Nat :=
  (utf16Data key).foldl jsHashStep (some 0)

/-- The exact (unrounded) value of the same fold, over `Nat`. -/
def hashExact16 (key : String) : Nat :=
  (utf16Data key).foldl (fun h c => 31 * h + c) 0

/-- `Math.abs(hashCode) % this.capacity` over doubles: the hash here is
never negative, so `abs` is the identity; a finite integer-valued double
gives the exact remainder, and `Infinity % capacity` is `NaN` (`none`). -/
def getIndexF (capacity : Nat) (h : Option Nat) : Option Nat :=
  h.map (fun n => n % capacity)

theorem roundFloat_small (n : Nat) (h : n < 2 ^ 53) : roundFloat n = some n := by
  have h' : n < 9007199254740992 := by
    calc n < 2 ^ 53 := h
    _ = 9007199254740992 := by norm_num
  rw [roundFloat, if_pos h']

/-- The polynomial fold only grows along the list. -/
theorem foldPoly_mono (l : List Nat) (acc : Nat) :
    acc ≤ l.foldl (fun h c => 31 * h + c) acc := by
  induction l generalizing acc with
  | nil => exact le_refl _
  | cons c rest ih =>
    rw [List.foldl_cons]
    refine le_trans ?_ (ih (31 * acc + c))
    calc acc ≤ 31 * acc := Nat.le_mul_of_pos_left acc (by norm_num)
    _ ≤ 31 * acc + c := Nat.le_add_right _ _

/-- While the exact fold stays below `2^53`, the double fold computes it
exactly. -/
theorem foldF_exact (l : List Nat) (acc : Nat)
    (h : l.foldl (fun h c => 31 * h + c) acc < 2 ^ 53) :
    l.foldl jsHashStep (some acc) = some (l.foldl (fun h c => 31 * h + c) acc) := by
  induction l generalizing acc with
  | nil => rfl
  | cons c rest ih =>
    rw [List.foldl_cons] at h ⊢
    have hacc' : 31 * acc + c < 2 ^ 53 :=
      lt_of_le_of_lt (foldPoly_mono rest (31 * acc + c)) h
    have hmul : 31 * acc < 2 ^ 53 := lt_of_le_of_lt (Nat.le_add_right _ _) hacc'
    rw [show jsHashStep (some acc) c = some (31 * acc + c) from by
      rw [jsHashStep, roundFloat_small _ hmul]
      show roundFloat (31 * acc + c) = some (31 * acc + c)
      exact roundFloat_small _ hacc']
    exact ih (31 * acc + c) h

/-- For keys of basic-plane characters the code-unit sequence is the
code-point sequence. -/
theorem utf16Data_bmp (key : String) (h : ∀ c ∈ key.data, c.toNat < 65536) :
    utf16Data key = key.data.map Char.toNat := by
  rw [utf16Data]
  have hgen : ∀ (l : List Char), (∀ c ∈ l, c.toNat < 65536) →
      (l.map utf16Units).flatten = l.map Char.toNat := by
    intro l
    induction l with
    | nil => intro _; rfl
    | cons c rest ih =>
      intro hl
      rw [List.map_cons, List.map_cons, List.flatten_cons,
        show utf16Units c = [c.toNat] from by
          rw [utf16Units, if_pos (hl c (List.mem_cons_self c rest))],
        ih (fun c' hc' => hl c' (List.mem_cons_of_mem c hc'))]
      rfl
  exact hgen key.data h

/-- The exact `Nat` fold agrees with the exact `Int` fold of
`HashMap.hash`. -/
theorem foldl_int_eq_nat (l : List Char) (acc : Nat) :
    l.foldl (fun h c => 31 * h + (c.toNat : Int)) (acc : Int)
      = ((l.map Char.toNat).foldl (fun h c => 31 * h + c) acc : Nat) := by
  induction l generalizing acc with
  | nil => rfl
  | cons c rest ih =>
    rw [List.foldl_cons, List.map_cons, List.foldl_cons,
      show (31 * (acc : Int) + (c.toNat : Int)) = ((31 * acc + c.toNat : Nat) : Int) from by
        push_cast
        ring]
    exact ih (31 * acc + c.toNat)

set_option maxRecDepth 4000

/-! ### The map over the bit-exact hash

`HashMapF` is `HashMap` with the hash computed as the engine computes it
(`hashF`).  The bucket index is an `Option Nat`: `some i` indexes slot `i`
of the array, and `none` is the index `NaN` produced by
`Math.abs(Infinity) % capacity`, under which JavaScript stores the chain in
the array object's string property "NaN" — modelled by the extra field
`nanStorage`.  The `for (let i = 0; i < this.capacity; i++)` loops of
`entries`/`keys`/`values` never visit that property, and `_resize`
allocates a fresh array (empty `nanStorage`), which is what loses
NaN-indexed entries during a rehash.  This model settles the claims that
are sensitive to double rounding and saturation; only the operations those
claims exercise are included. -/

structure HashMapF where
  storage : List (List (String × JsVal))
  nanStorage : List (String × JsVal)
  size : Nat
  capacity : Nat
  loadFactor : ℚ
deriving DecidableEq

def HashMapF.create (initialCapacity : Nat) (loadFactor : ℚ) : HashMapF :=
  { storage := List.replicate initialCapacity []
    nanStorage := []
    size := 0
    capacity := initialCapacity
    loadFactor := loadFactor }

/-- `this.storage[index]`, where `index` may be `NaN` (`none`). -/
def HashMapF.bucketAt (m : HashMapF) (index : Option Nat) : List (String × JsVal) :=
  match index with
  | some i => m.storage.getD i []
  | none => m.nanStorage

/-- Store a bucket back under a (possibly `NaN`) index. -/
def HashMapF.putBucket (m : HashMapF) (index : Option Nat)
    (bucket : List (String × JsVal)) : HashMapF :=
  match index with
  | some i => { m with storage := m.storage.set i bucket }
  | none => { m with nanStorage := bucket }

def HashMapF._shouldResize (m : HashMapF) : Bool :=
  decide ((m.size : ℤ) * (m.loadFactor.den : ℤ) > m.loadFactor.num * (m.capacity : ℤ))

/-- The bucket update of `set`, exactly as in `HashMap._setRaw` but with
the bit-exact hash and the `NaN` bucket. -/
def HashMapF._setRaw (m : HashMapF) (key : String) (value : JsVal) : HashMapF × Bool :=
  let index := getIndexF m.capacity (hashF key)
  let bucket := m.bucketAt index
  match setChain bucket key value with
  | some bucket2 => (m.putBucket index bucket2, false)
  | none =>
    ({ m.putBucket index (bucket ++ [(key, value)]) with size := m.size + 1 }, true)

/-- `entries`: the `0 .. capacity - 1` loop — the "NaN" property is never
visited. -/
def HashMapF.entries (m : HashMapF) : List (String × JsVal) :=
  m.storage.flatten

/-- The fresh doubled table of `_resize`: a brand-new array, so its "NaN"
property is absent. -/
def HashMapF.emptyDouble (m : HashMapF) : HashMapF :=
  { storage := List.replicate (m.capacity * 2) []
    nanStorage := []
    size := 0
    capacity := m.capacity * 2
    loadFactor := m.loadFactor }

/-- Fuelled `set` with the inlined `_resize`, exactly as `HashMap.setF`. -/
def HashMapF.setF : Nat → HashMapF → String → JsVal → HashMapF
  | 0, m, key, value => (m._setRaw key value).1
  | fuel + 1, m, key, value =>
    let r := m._setRaw key value
    if r.2 && r.1._shouldResize then
      r.1.entries.foldl (fun acc e => HashMapF.setF fuel acc e.1 e.2) r.1.emptyDouble
    else r.1

def HashMapF.set (m : HashMapF) (key : String) (value : JsVal) : HashMapF :=
  HashMapF.setF ((m.size + 1) * m.loadFactor.den + 1) m key value

def HashMapF.get (m : HashMapF) (key : String) : JsVal :=
  getChain (m.bucketAt (getIndexF m.capacity (hashF key))) key

def HashMapF.has (m : HashMapF) (key : String) : Bool :=
  hasChain (m.bucketAt (getIndexF m.capacity (hashF key))) key

def HashMapF.length (m : HashMapF) : Nat :=
  m.size

def HashMapF.keys (m : HashMapF) : List String :=
  (m.storage.map (fun b => b.map Prod.fst)).flatten

def HashMapF.values (m : HashMapF) : List JsVal :=
  (m.storage.map (fun b => b.map Prod.snd)).flatten

/-- 210 repetitions of `x`: its double hash saturates to `Infinity`, so
its bucket index is `NaN`. -/
def keyX210 : String :=
  String.mk (List.replicate 210 'x')

/-- 210 repetitions of `k`, same saturation. -/
def keyK210 : String :=
  String.mk (List.replicate 210 'k')

/-- 210 repetitions of `a`, same saturation. -/
def keyA210 : String :=
  String.mk (List.replicate 210 'a')

/-- 13 repetitions of `a`: long enough that the double fold rounds, short
enough to stay finite. -/
def keyA13 : String :=
  String.mk (List.replicate 13 'a')

/-- Twelve distinct keys with distinct values, used by the C9 scenario. -/
def twelveEntries : List (String × JsVal) :=
  [("a", JsVal.num 1), ("b", JsVal.num 2), ("c", JsVal.num 3), ("d", JsVal.num 4),
   ("e", JsVal.num 5), ("f", JsVal.num 6), ("g", JsVal.num 7), ("h", JsVal.num 8),
   ("i", JsVal.num 9), ("j", JsVal.num 10), ("k", JsVal.num 11), ("l", JsVal.num 12)]

/-! ### The claims -/

/-- C1: the code-bug demonstration.  In the source, a ~210-character key
hashes to `Infinity`, so its bucket index is `NaN` and the entry is stored
under the array property "NaN".  On the traced failing input — 12 distinct
short keys in a fresh `HashMap(16, 0.75)`, then `set(keyX210, v)` — the
insertion raises `size` to 13, `13/16 > 0.75` fires `_resize` inside that
very `set`, the rebuild reads `entries()` (the `0..capacity-1` loop, which
never visits "NaN") and drops the entry: immediately after `set(k, v)`
returns, `get(k)` is `null ≠ v` and `has(k)` is `false`, violating the
claim.  This theorem evaluates the bit-exact model at that input. -/
theorem claim_C1_code_bug_trace :
    (twelveEntries.foldl (fun t e => t.set e.1 e.2) (HashMapF.create 16 ratio34)).size = 12 ∧
    (twelveEntries.foldl (fun t e => t.set e.1 e.2) (HashMapF.create 16 ratio34)).capacity = 16 ∧
    ((twelveEntries.foldl (fun t e => t.set e.1 e.2) (HashMapF.create 16 ratio34)).set keyX210
        (JsVal.str "gold")).get keyX210 = JsVal.null ∧
    JsVal.null ≠ JsVal.str "gold" ∧
    ((twelveEntries.foldl (fun t e => t.set e.1 e.2) (HashMapF.create 16 ratio34)).set keyX210
        (JsVal.str "gold")).has keyX210 = false ∧
    ((twelveEntries.foldl (fun t e => t.set e.1 e.2) (HashMapF.create 16 ratio34)).set keyX210
        (JsVal.str "gold")).capacity = 32 ∧
    ((twelveEntries.foldl (fun t e => t.set e.1 e.2) (HashMapF.create 16 ratio34)).set keyX210
        (JsVal.str "gold")).size = 12 := by decide

/-- C2: Map update-in-place — for every key already present (in any state),
`set(k, v2)` overwrites the stored value, leaves `length()` unchanged (size
is not incremented and no resize runs, so `capacity` is unchanged too), and
afterwards `get(k)` returns `v2`. -/
theorem claim_C2_update_in_place (m : HashMap) (key : String) (value : JsVal)
    (h : m.has key = true) :
    (m.set key value).length = m.length ∧
    (m.set key value).capacity = m.capacity ∧
    (m.set key value).get key = value := by
  obtain ⟨h1, h2, h3⟩ := HashMap.set_update_of_has m key value h
  exact ⟨h2, h1, h3⟩

theorem claim_C2_witness :
    ((HashMap.create 16 ratio34).set "lion" (JsVal.str "golden")).has "lion" = true ∧
    ((((HashMap.create 16 ratio34).set "lion" (JsVal.str "golden")).set "lion"
          (JsVal.str "Glowing golden")).length
        = ((HashMap.create 16 ratio34).set "lion" (JsVal.str "golden")).length ∧
      (((HashMap.create 16 ratio34).set "lion" (JsVal.str "golden")).set "lion"
          (JsVal.str "Glowing golden")).capacity
        = ((HashMap.create 16 ratio34).set "lion" (JsVal.str "golden")).capacity ∧
      (((HashMap.create 16 ratio34).set "lion" (JsVal.str "golden")).set "lion"
          (JsVal.str "Glowing golden")).get "lion" = JsVal.str "Glowing golden") :=
  ⟨by decide,
    claim_C2_update_in_place ((HashMap.create 16 ratio34).set "lion" (JsVal.str "golden"))
      "lion" (JsVal.str "Glowing golden") (by decide)⟩

/-- C3: Removal semantics — on a reachable map, removing a present key
returns `true`, afterwards `has(k)` is `false` and `length()` drops by
exactly 1; removing an absent key returns `false` and leaves `length()`
unchanged. -/
theorem claim_C3_removal (m : HashMap) (key : String) (h : m.Reachable) :
    (m.has key = true →
      (m.remove key).2 = true ∧ (m.remove key).1.has key = false ∧
      (m.remove key).1.length + 1 = m.length) ∧
    (m.has key = false →
      (m.remove key).2 = false ∧ (m.remove key).1.length = m.length) := by
  obtain ⟨hwf, _⟩ := HashMap.reachable_wf_bal m h
  obtain ⟨h1, h2, h3, hflag, hsz, hid, hlook⟩ := HashMap.remove_spec m key hwf
  constructor
  · intro hhas
    have hflag' : (m.remove key).2 = true := by
      rw [hflag, ← HashMap.has_eq_lookup]
      exact hhas
    refine ⟨hflag', ?_, hsz hflag'⟩
    rw [HashMap.has_eq_lookup, hlook key, if_pos rfl]
    rfl
  · intro hhas
    have hflag' : (m.remove key).2 = false := by
      rw [hflag, ← HashMap.has_eq_lookup]
      exact hhas
    refine ⟨hflag', ?_⟩
    show (m.remove key).1.length = m.length
    rw [hid hflag']

theorem claim_C3_witness :
    ((HashMap.create 16 ratio34).set "lion" (JsVal.str "golden")).Reachable ∧
    ((HashMap.create 16 ratio34).set "lion" (JsVal.str "golden")).has "lion" = true ∧
    ((((HashMap.create 16 ratio34).set "lion" (JsVal.str "golden")).remove "lion").2 = true ∧
      ((((HashMap.create 16 ratio34).set "lion" (JsVal.str "golden")).remove "lion").1.has "lion"
        = false) ∧
      ((((HashMap.create 16 ratio34).set "lion" (JsVal.str "golden")).remove "lion").1.length + 1
        = ((HashMap.create 16 ratio34).set "lion" (JsVal.str "golden")).length)) :=
  ⟨HashMap.Reachable.set (HashMap.create 16 ratio34) "lion" (JsVal.str "golden")
      (HashMap.Reachable.init 16 ratio34 (by decide) (by decide) (by decide)),
    by decide,
    (claim_C3_removal ((HashMap.create 16 ratio34).set "lion" (JsVal.str "golden")) "lion"
        (HashMap.Reachable.set (HashMap.create 16 ratio34) "lion" (JsVal.str "golden")
          (HashMap.Reachable.init 16 ratio34 (by decide) (by decide) (by decide)))).1
      (by decide)⟩

/-- C4: Load-factor bound — for every table constructed with positive
capacity and `loadFactor` in `(0, 1]`, after any finite sequence of
`set` (map) / `add` (set) operations, `size / capacity ≤ loadFactor` holds
when the last operation returns. -/
theorem claim_C4_load_factor_bound (initialCapacity : Nat) (loadFactor : ℚ)
    (hc : 0 < initialCapacity) (h0 : 0 < loadFactor) (h1 : loadFactor ≤ 1)
    (mops : List (String × JsVal)) (sops : List String) :
    (((mops.foldl (fun t e => t.set e.1 e.2)
          (HashMap.create initialCapacity loadFactor)).size : ℚ)
        / ((mops.foldl (fun t e => t.set e.1 e.2)
          (HashMap.create initialCapacity loadFactor)).capacity : ℚ) ≤ loadFactor) ∧
    (((sops.foldl (fun t k => t.add k)
          (HashSet.create initialCapacity loadFactor)).size : ℚ)
        / ((sops.foldl (fun t k => t.add k)
          (HashSet.create initialCapacity loadFactor)).capacity : ℚ) ≤ loadFactor) := by
  constructor
  · have hinit := HashMap.Reachable.init initialCapacity loadFactor hc h0 h1
    have hreach := HashMap.reachable_foldl_set _ hinit mops
    obtain ⟨hwf, hbal⟩ := HashMap.reachable_wf_bal _ hreach
    have hlf : (mops.foldl (fun t e => t.set e.1 e.2)
        (HashMap.create initialCapacity loadFactor)).loadFactor = loadFactor :=
      HashMap.foldl_set_loadFactor _ hinit mops
    have hcap : (0:ℚ) < ((mops.foldl (fun t e => t.set e.1 e.2)
        (HashMap.create initialCapacity loadFactor)).capacity : ℚ) := by
      exact_mod_cast hwf.cap_pos
    rw [div_le_iff₀ hcap]
    have hb := hbal
    rw [HashMap.Bal, hlf] at hb
    calc ((mops.foldl (fun t e => t.set e.1 e.2)
          (HashMap.create initialCapacity loadFactor)).size : ℚ)
        ≤ loadFactor * ((mops.foldl (fun t e => t.set e.1 e.2)
          (HashMap.create initialCapacity loadFactor)).capacity : ℚ) := hb
    _ = _ := by ring
  · have hinit := HashSet.Reachable.init initialCapacity loadFactor hc h0 h1
    have hreach := HashSet.reachable_foldl_add _ hinit sops
    obtain ⟨hwf, hbal⟩ := HashSet.reachableS_wf_bal _ hreach
    have hlf : (sops.foldl (fun t k => t.add k)
        (HashSet.create initialCapacity loadFactor)).loadFactor = loadFactor :=
      HashSet.foldl_add_loadFactor _ hinit sops
    have hcap : (0:ℚ) < ((sops.foldl (fun t k => t.add k)
        (HashSet.create initialCapacity loadFactor)).capacity : ℚ) := by
      exact_mod_cast hwf.cap_pos
    rw [div_le_iff₀ hcap]
    have hb := hbal
    rw [HashSet.Bal, hlf] at hb
    calc ((sops.foldl (fun t k => t.add k)
          (HashSet.create initialCapacity loadFactor)).size : ℚ)
        ≤ loadFactor * ((sops.foldl (fun t k => t.add k)
          (HashSet.create initialCapacity loadFactor)).capacity : ℚ) := hb
    _ = _ := by ring

theorem claim_C4_witness :
    (0 < 16 ∧ (0:ℚ) < ratio34 ∧ ratio34 ≤ 1) ∧
    (((([("a", JsVal.num 1)].foldl (fun t e => t.set e.1 e.2)
          (HashMap.create 16 ratio34)).size : ℚ)
        / (([("a", JsVal.num 1)].foldl (fun t e => t.set e.1 e.2)
          (HashMap.create 16 ratio34)).capacity : ℚ) ≤ ratio34) ∧
      (((["a"].foldl (fun t k => t.add k) (HashSet.create 16 ratio34)).size : ℚ)
        / ((["a"].foldl (fun t k => t.add k) (HashSet.create 16 ratio34)).capacity : ℚ)
          ≤ ratio34)) :=
  ⟨⟨by decide, by decide, by decide⟩,
    claim_C4_load_factor_bound 16 ratio34 (by decide) (by decide) (by decide)
      [("a", JsVal.num 1)] ["a"]⟩

/-- C5 counterexample: `get` signals a miss with `JsVal.null`, which is a
storable value — a key stored with value `null` is indistinguishable from an
absent key through `get` (both return `null`), refuting the claim that the
absent result is distinct from every storable value. -/
theorem claim_C5_counterexample :
    ((HashMap.create 16 ratio34).set "k" JsVal.null).has "k" = true ∧
    ((HashMap.create 16 ratio34).set "k" JsVal.null).get "k" = JsVal.null ∧
    (HashMap.create 16 ratio34).has "k" = false ∧
    (HashMap.create 16 ratio34).get "k" = JsVal.null := by decide

/-- C5 (amended): for every key reported absent by `has`, `get` returns the
bare sentinel `JsVal.null`; since `null` is itself storable, a key mapped to
`null` is not distinguishable from an absent key by `get` alone (only `has`
distinguishes them). -/
theorem claim_C5_amended_null_sentinel (m : HashMap) (key : String)
    (h : m.has key = false) : m.get key = JsVal.null :=
  HashMap.get_eq_null_of_not_has m key h

theorem claim_C5_witness :
    (HashMap.create 16 ratio34).has "missing" = false ∧
    (HashMap.create 16 ratio34).get "missing" = JsVal.null :=
  ⟨by decide, claim_C5_amended_null_sentinel (HashMap.create 16 ratio34) "missing" (by decide)⟩

/-- C6: Capacity monotonicity — `capacity` never decreases under any
operation of either container: `set`/`add` can only grow it, `remove`
leaves it unchanged, and `clear` resets `size` to 0 and replaces the bucket
array while preserving the current capacity. -/
theorem claim_C6_capacity_monotone (m : HashMap) (key : String) (value : JsVal)
    (s : HashSet) (k : String) :
    m.capacity ≤ (m.set key value).capacity ∧
    (m.remove key).1.capacity = m.capacity ∧
    m.clear.capacity = m.capacity ∧
    m.clear.size = 0 ∧
    m.clear.storage = List.replicate m.capacity [] ∧
    s.capacity ≤ (s.add k).capacity ∧
    (s.remove k).1.capacity = s.capacity ∧
    s.clear.capacity = s.capacity ∧
    s.clear.size = 0 ∧
    s.clear.storage = List.replicate s.capacity [] :=
  ⟨HashMap.set_capacity_mono m key value, HashMap.remove_capacity m key, rfl, rfl, rfl,
    HashSet.add_capacity_mono s k, HashSet.removeS_capacity s k, rfl, rfl, rfl⟩

/-- C8 counterexample: the claim fails on the source at concrete inputs.
For 210 repetitions of `a` the double hash saturates to `Infinity` and
`Math.abs(hash) % 16` is `NaN` — not a number in `[0, 16)` — and already
for 13 repetitions of `a` the double hash differs from the exact
polynomial fold (the running value exceeds `2^53` and rounds). -/
theorem claim_C8_counterexample :
    getIndexF 16 (hashF keyA210) = none ∧
    hashF keyA210 = none ∧
    hashF keyA13 ≠ some (hashExact16 keyA13) := by decide

/-- C8 (amended): for every key whose exact polynomial value stays below
`2^53`, the source's double computation is exact — the hash is the
left-to-right fold `h = 31*h + charCode(c)` over the UTF-16 code units —
and `abs(hash) mod capacity` lies in `[0, capacity)` whenever
`capacity > 0`; on basic-plane keys it moreover equals the exact
integer idealization `HashMap.hash`, and both classes share one hash
function.  (Beyond `2^53` the double fold rounds, and around 208+ code
units it saturates to `Infinity`, making the index `NaN`.) -/
theorem claim_C8_amended_exact_regime (key : String) (cap : Nat)
    (hcap : 0 < cap) (hsmall : hashExact16 key < 2 ^ 53) :
    hashF key = some (hashExact16 key) ∧
    getIndexF cap (hashF key) = some (hashExact16 key % cap) ∧
    hashExact16 key % cap < cap ∧
    ((∀ c ∈ key.data, c.toNat < 65536) → HashMap.hash key = (hashExact16 key : Int)) ∧
    HashSet.hash = HashMap.hash := by
  have hF : hashF key = some (hashExact16 key) := foldF_exact (utf16Data key) 0 hsmall
  refine ⟨hF, ?_, Nat.mod_lt _ hcap, ?_, rfl⟩
  · rw [getIndexF, hF]
    rfl
  · intro hbmp
    rw [HashMap.hash, hashExact16, utf16Data_bmp key hbmp]
    exact foldl_int_eq_nat key.data 0

theorem claim_C8_amended_witness :
    (0 < 16 ∧ hashExact16 "lion" < 2 ^ 53) ∧
    (hashF "lion" = some (hashExact16 "lion") ∧
      getIndexF 16 (hashF "lion") = some (hashExact16 "lion" % 16) ∧
      hashExact16 "lion" % 16 < 16 ∧
      HashMap.hash "lion" = (hashExact16 "lion" : Int) ∧
      HashSet.hash = HashMap.hash) :=
  ⟨⟨by decide, by decide⟩,
    ⟨(claim_C8_amended_exact_regime "lion" 16 (by decide) (by decide)).1,
      (claim_C8_amended_exact_regime "lion" 16 (by decide) (by decide)).2.1,
      (claim_C8_amended_exact_regime "lion" 16 (by decide) (by decide)).2.2.1,
      (claim_C8_amended_exact_regime "lion" 16 (by decide) (by decide)).2.2.2.1 (by decide),
      (claim_C8_amended_exact_regime "lion" 16 (by decide) (by decide)).2.2.2.2⟩⟩

/-- C9: Resize trigger scenario — with `initialCapacity = 16` and
`loadFactor = 0.75`, inserting 12 distinct keys causes no resize
(`capacity` is still 16, size 12, since `12/16 = 0.75` is not strictly
greater than `0.75`), and the 13th distinct insertion triggers exactly one
resize (`13/16 > 0.75`), doubling `capacity` to 32. -/
theorem claim_C9_resize_scenario :
    (twelveEntries.foldl (fun t e => t.set e.1 e.2)
        (HashMap.create 16 (3 / 4))).capacity = 16 ∧
    (twelveEntries.foldl (fun t e => t.set e.1 e.2)
        (HashMap.create 16 (3 / 4))).size = 12 ∧
    ((twelveEntries.foldl (fun t e => t.set e.1 e.2)
        (HashMap.create 16 (3 / 4))).set "m" (JsVal.num 13)).capacity = 32 ∧
    ((twelveEntries.foldl (fun t e => t.set e.1 e.2)
        (HashMap.create 16 (3 / 4))).set "m" (JsVal.num 13)).size = 13 := by
  rw [← ratio34_eq]
  decide

/-- C10: the code-bug demonstration.  Storing one ~210-character key in a
fresh `HashMap(16, 0.75)` puts the entry under the array property "NaN"
(the double hash is `Infinity`); `size` counts it — `has` even finds it —
but the `0..capacity-1` loops of `keys()`/`values()`/`entries()` never
visit it, so `keys().length = 0 ≠ 1 = length()`, violating the claim on a
reachable state.  This theorem evaluates the bit-exact model there. -/
theorem claim_C10_code_bug_trace :
    ((HashMapF.create 16 ratio34).set keyK210 (JsVal.num 1)).length = 1 ∧
    ((HashMapF.create 16 ratio34).set keyK210 (JsVal.num 1)).keys = [] ∧
    ((HashMapF.create 16 ratio34).set keyK210 (JsVal.num 1)).values = [] ∧
    ((HashMapF.create 16 ratio34).set keyK210 (JsVal.num 1)).entries = [] ∧
    ((HashMapF.create 16 ratio34).set keyK210 (JsVal.num 1)).has keyK210 = true := by decide
